import Mathlib

/-! A verification development for `strings2` (gohper).

Shallow embedding of `strings2/string.go`.

* A Go `string` is an immutable sequence of bytes: `Str := List (Fin 256)`.
* A Go `int` is modelled by `Int`.  Lengths and sums of lengths of strings
  that fit in memory never approach `2^63`, so they are not wrapped.  The one
  `int` expression with a free integer operand, the buffer capacity
  `(len(s)+len(sep))*count-len(sep)` of `RepeatJoin`, is computed with 64-bit
  wrap-around (`wrapInt`).
* Index and slice expressions of the embedded source go through `byteAt` and
  `slice`, which return `none` where Go raises a run-time panic.  A function
  that contains such an expression therefore returns an `Option`; `none`
  means "the call panics".
* The functions of the Go standard library that the source calls
  (`strings.TrimSpace`, `strings.Index`, `strings.LastIndex`,
  `strings.IndexByte`, `strings.Split`, `copy`, `bytes.Buffer`) are embedded
  from their documented behaviour.
-/

set_option autoImplicit false

namespace Strings2

/-! ## Data model -/

/-- A Go byte. -/
abbrev Byte := Fin 256

/-- A Go string: an immutable sequence of bytes. -/
abbrev Str := List Byte

/-- Go builtin `len(s)` for a string, typed `int`. -/
def len (s : Str) : Int := (s.length : Int)

/-- Go index expression `s[i]`.  The result is `none` when the index is out of
range (run-time panic). -/
def byteAt (s : Str) (i : Int) : Option Byte :=
  if 0 ≤ i ∧ i < len s then s.get? i.toNat else none

/-- Go slice expression `s[lo:hi]`.  The result is `none` unless
`0 ≤ lo ≤ hi ≤ len(s)` (run-time panic otherwise). -/
def slice (s : Str) (lo hi : Int) : Option Str :=
  if 0 ≤ lo ∧ lo ≤ hi ∧ hi ≤ len s then some ((s.take hi.toNat).drop lo.toNat) else none

/-- Go slice expression `s[lo:]`. -/
def sliceFrom (s : Str) (lo : Int) : Option Str := slice s lo (len s)

/-- Go slice expression `s[:hi]`. -/
def sliceTo (s : Str) (hi : Int) : Option Str := slice s 0 hi

/-! ## Standard library: `unicode/utf8` and `unicode` -/

/-- Constant `utf8.RuneError`. -/
def RuneError : Nat := 0xFFFD

/-- Constant `utf8.RuneSelf`. -/
def RuneSelf : Nat := 0x80

/-- Table `utf8.first`: information about the first byte of an encoding. -/
def first (b : Byte) : Nat :=
  let v := b.val
  if v < 0x80 then 0xF0
  else if v < 0xC2 then 0xF1
  else if v < 0xE0 then 0x02
  else if v = 0xE0 then 0x13
  else if v < 0xED then 0x03
  else if v = 0xED then 0x23
  else if v < 0xF0 then 0x03
  else if v = 0xF0 then 0x34
  else if v < 0xF4 then 0x04
  else if v = 0xF4 then 0x44
  else 0xF1

/-- Table `utf8.acceptRanges`: the admissible range of the second byte. -/
def acceptRanges (k : Nat) : Nat × Nat :=
  match k with
  | 0 => (0x80, 0xBF)
  | 1 => (0xA0, 0xBF)
  | 2 => (0x80, 0x9F)
  | 3 => (0x90, 0xBF)
  | 4 => (0x80, 0x8F)
  | _ => (0, 0)

/-- Function `utf8.DecodeRuneInString`: the first rune of `s` and its width in
bytes; an invalid encoding yields `(RuneError, 1)`, the empty string
`(RuneError, 0)`. -/
def DecodeRuneInString (s : Str) : Nat × Nat :=
  match s with
  | [] => (RuneError, 0)
  | s0 :: _ =>
    let x := first s0
    if x ≥ 0xF0 then
      (if x % 2 = 1 then RuneError else s0.val, 1)
    else
      let sz := x &&& 7
      let accept := acceptRanges (x >>> 4)
      if s.length < sz then (RuneError, 1)
      else
        let s1 := (s.getD 1 0).val
        if s1 < accept.1 ∨ accept.2 < s1 then (RuneError, 1)
        else if sz ≤ 2 then (((s0.val &&& 0x1F) <<< 6) ||| (s1 &&& 0x3F), 2)
        else
          let s2 := (s.getD 2 0).val
          if s2 < 0x80 ∨ 0xBF < s2 then (RuneError, 1)
          else if sz ≤ 3 then
            (((s0.val &&& 0x0F) <<< 12) ||| ((s1 &&& 0x3F) <<< 6) ||| (s2 &&& 0x3F), 3)
          else
            let s3 := (s.getD 3 0).val
            if s3 < 0x80 ∨ 0xBF < s3 then (RuneError, 1)
            else
              (((s0.val &&& 0x07) <<< 18) ||| ((s1 &&& 0x3F) <<< 12)
                ||| ((s2 &&& 0x3F) <<< 6) ||| (s3 &&& 0x3F), 4)

/-- Function `utf8.RuneStart`: the byte is not a continuation byte. -/
def RuneStart (b : Byte) : Bool := (b.val &&& 0xC0) != 0x80

/-- The backward scan of `utf8.DecodeLastRuneInString`:
`for start--; start >= lim; start-- { if RuneStart(s[start]) { break } }`. -/
def DecodeLastRuneInString.scan (s : Str) (lim : Int) : Nat → Int → Int
  | 0, start => start
  | k + 1, start =>
    if start ≥ lim then
      if RuneStart (s.getD start.toNat 0) then start
      else DecodeLastRuneInString.scan s lim k (start - 1)
    else start

/-- Function `utf8.DecodeLastRuneInString`: the last rune of `s` and its
width. -/
def DecodeLastRuneInString (s : Str) : Nat × Nat :=
  let n := s.length
  if n = 0 then (RuneError, 0)
  else
    let r := (s.getD (n - 1) 0).val
    if r < RuneSelf then (r, 1)
    else
      let lim : Int := if (n : Int) - 4 < 0 then 0 else (n : Int) - 4
      let start := DecodeLastRuneInString.scan s lim 4 ((n : Int) - 2)
      let start := if start < 0 then 0 else start.toNat
      let d := DecodeRuneInString ((s.take n).drop start)
      if start + d.2 ≠ n then (RuneError, 1) else d

/-- Function `unicode.IsSpace`: the Latin-1 spaces and the `White_Space`
range table above Latin-1. -/
def IsSpace (r : Nat) : Bool :=
  if r ≤ 0xFF then
    r = 0x09 ∨ r = 0x0A ∨ r = 0x0B ∨ r = 0x0C ∨ r = 0x0D ∨ r = 0x20 ∨ r = 0x85 ∨ r = 0xA0
  else
    r = 0x1680 ∨ (0x2000 ≤ r ∧ r ≤ 0x200A) ∨ r = 0x2028 ∨ r = 0x2029 ∨ r = 0x202F
      ∨ r = 0x205F ∨ r = 0x3000

/-! ## Standard library: `strings` trimming -/

/-- Table `strings.asciiSpace`. -/
def asciiSpace (c : Byte) : Nat :=
  if c = 0x09 ∨ c = 0x0A ∨ c = 0x0B ∨ c = 0x0C ∨ c = 0x0D ∨ c = 0x20 then 1 else 0

/-- Function `strings.indexFunc` with `truth = false`: the byte index of the
first rune not satisfying `f`, or `-1`.  The first argument bounds the number
of runes visited; the second is the unread part of the string, the third its
byte offset. -/
def indexFunc.go (f : Nat → Bool) : Nat → Str → Nat → Int
  | 0, _, _ => -1
  | k + 1, s, i =>
    if s = [] then -1
    else
      let d := DecodeRuneInString s
      if f d.1 = false then (i : Int) else indexFunc.go f k (s.drop d.2) (i + d.2)

/-- Function `strings.indexFunc(s, f, false)`. -/
def indexFunc (s : Str) (f : Nat → Bool) : Int := indexFunc.go f s.length s 0

/-- Function `strings.lastIndexFunc` with `truth = false`, as the loop
`for i := len(s); i > 0; { r, size := DecodeLastRuneInString(s[0:i]); i -= size; ... }`. -/
def lastIndexFunc.go (s : Str) (f : Nat → Bool) : Nat → Nat → Int
  | 0, _ => -1
  | k + 1, i =>
    if i > 0 then
      let d := DecodeLastRuneInString (s.take i)
      let i := i - d.2
      if f d.1 = false then (i : Int) else lastIndexFunc.go s f k i
    else -1

/-- Function `strings.lastIndexFunc(s, f, false)`. -/
def lastIndexFunc (s : Str) (f : Nat → Bool) : Int := lastIndexFunc.go s f s.length s.length

/-- Function `strings.TrimLeftFunc`. -/
def TrimLeftFunc (s : Str) (f : Nat → Bool) : Str :=
  let i := indexFunc s f
  if i = -1 then [] else s.drop i.toNat

/-- Function `strings.TrimRightFunc`. -/
def TrimRightFunc (s : Str) (f : Nat → Bool) : Str :=
  let i := lastIndexFunc s f
  let i : Int :=
    if i ≥ 0 ∧ (s.getD i.toNat 0).val ≥ RuneSelf then
      i + (DecodeRuneInString (s.drop i.toNat)).2
    else i + 1
  s.take i.toNat

/-- Function `strings.TrimFunc`. -/
def TrimFunc (s : Str) (f : Nat → Bool) : Str := TrimRightFunc (TrimLeftFunc s f) f

/-- First loop of `strings.TrimSpace`: scan for the first ASCII non-space byte.
The list argument is `s[start:]`.  The Boolean is true when a non-ASCII byte
was met (fall back to the Unicode-aware path). -/
def TrimSpace.startLoop : Str → Nat → Nat × Bool
  | [], start => (start, false)
  | c :: cs, start =>
    if c.val ≥ RuneSelf then (start, true)
    else if asciiSpace c = 0 then (start, false)
    else TrimSpace.startLoop cs (start + 1)

/-- Second loop of `strings.TrimSpace`: scan backwards for the last ASCII
non-space byte.  The list argument is `s[start:stop]` reversed. -/
def TrimSpace.stopLoop : Str → Nat → Nat × Bool
  | [], stop => (stop, false)
  | c :: cs, stop =>
    if c.val ≥ RuneSelf then (stop, true)
    else if asciiSpace c = 0 then (stop, false)
    else TrimSpace.stopLoop cs (stop - 1)

/-- Function `strings.TrimSpace`: `s` without leading and trailing white space
as defined by Unicode. -/
def TrimSpace (s : Str) : Str :=
  let a := TrimSpace.startLoop s 0
  if a.2 then TrimFunc (s.drop a.1) IsSpace
  else
    let b := TrimSpace.stopLoop (s.drop a.1).reverse s.length
    if b.2 then TrimRightFunc ((s.take b.1).drop a.1) IsSpace
    else (s.take b.1).drop a.1

/-! ## `TrimQuote` -/

/-- The error values of the package (`errors.Err` constants). -/
inductive GoError
  | ErrQuoteNotMatch
  deriving DecidableEq

/-- Source `TrimQuote` (string.go, lines 15-29).  The Go result pair
`(string, error)` is `Str × Option GoError`; `none` for the whole result is a
run-time panic. -/
def TrimQuote (str : Str) : Option (Str × Option GoError) :=
  let str := TrimSpace str
  let l := len str
  if l > 0 then do
    let c ← byteAt str 0
    if c = 39 ∨ c = 34 ∨ c = 96 then do
      let e ← byteAt str (l - 1)
      if e = c then do
        let r ← slice str 1 (l - 1)
        pure (r, none)
      else pure ([], some GoError.ErrQuoteNotMatch)
    else pure (str, none)
  else pure (str, none)

/-! ## Standard library: `strings` searching and splitting -/

/-- Function `strings.Index`, scanning loop: the list argument is the unread
part `s[i:]`. -/
def Index.go (sep : Str) : Str → Nat → Int
  | [], i => if sep = [] then (i : Int) else -1
  | c :: cs, i =>
    if (c :: cs).take sep.length = sep then (i : Int) else Index.go sep cs (i + 1)

/-- Function `strings.Index`: the index of the first instance of `sep` in `s`,
or `-1` if `sep` is not present in `s`. -/
def Index (s sep : Str) : Int := Index.go sep s 0

/-- Function `strings.LastIndex`, scanning loop: the last argument is the
latest instance seen so far. -/
def LastIndex.go (sep : Str) : Str → Nat → Int → Int
  | [], i, acc => if sep = [] then (i : Int) else acc
  | c :: cs, i, acc =>
    LastIndex.go sep cs (i + 1) (if (c :: cs).take sep.length = sep then (i : Int) else acc)

/-- Function `strings.LastIndex`: the index of the last instance of `sep` in
`s`, or `-1` if `sep` is not present in `s`. -/
def LastIndex (s sep : Str) : Int := LastIndex.go sep s 0 (-1)

/-- Function `strings.IndexByte`, scanning loop. -/
def IndexByte.go (c : Byte) : Str → Nat → Int
  | [], _ => -1
  | b :: bs, i => if b = c then (i : Int) else IndexByte.go c bs (i + 1)

/-- Function `strings.IndexByte`: the index of the first instance of `c` in
`s`, or `-1`. -/
def IndexByte (s : Str) (c : Byte) : Int := IndexByte.go c s 0

/-- Function `utf8.RuneCountInString`, loop over the runes of the string. -/
def RuneCountInString.go : Nat → Str → Nat → Nat
  | 0, _, n => n
  | k + 1, s, n =>
    if s = [] then n else RuneCountInString.go k (s.drop (DecodeRuneInString s).2) (n + 1)

/-- Function `utf8.RuneCountInString`. -/
def RuneCountInString (s : Str) : Nat := RuneCountInString.go s.length s 0

/-- Function `strings.Count`, the loop
`for { i := Index(s, substr); if i == -1 { return n }; n++; s = s[i+len(substr):] }`. -/
def Count.go (sep : Str) : Nat → Str → Nat → Nat
  | 0, _, n => n
  | k + 1, s, n =>
    let i := Index s sep
    if i = -1 then n else Count.go sep k (s.drop (i.toNat + sep.length)) (n + 1)

/-- Function `strings.Count`: the number of non-overlapping instances of `sep`
in `s`; for the empty `sep`, one more than the number of runes of `s`. -/
def Count (s sep : Str) : Nat :=
  if sep = [] then RuneCountInString s + 1 else Count.go sep (s.length + 1) s 0

/-- Function `strings.explode`, the loop cutting one rune per iteration. -/
def explode.loop : Nat → Str → List Str → List Str × Str
  | 0, s, a => (a, s)
  | k + 1, s, a =>
    let size := (DecodeRuneInString s).2
    explode.loop k (s.drop size) (a ++ [s.take size])

/-- Function `strings.explode`: `s` cut into its UTF-8 sequences, at most `n`
of them. -/
def explode (s : Str) (n : Int) : List Str :=
  let l : Int := (RuneCountInString s : Int)
  let n := if n < 0 ∨ n > l then l else n
  let r := explode.loop (n - 1).toNat s []
  if n > 0 then r.1 ++ [r.2] else r.1

/-- Function `strings.genSplit`, the loop
`for i < n { m := Index(s, sep); if m < 0 { break }; a[i] = s[:m+sepSave]; s = s[m+len(sep):]; i++ }`
followed by `a[i] = s; return a[:i+1]`.  The first argument is `n - i`, the
last one `a[:i]`. -/
def genSplit.loop (sep : Str) (sepSave : Nat) : Nat → Str → List Str → List Str
  | 0, s, a => a ++ [s]
  | k + 1, s, a =>
    let m := Index s sep
    if m < 0 then a ++ [s]
    else genSplit.loop sep sepSave k (s.drop (m.toNat + sep.length))
      (a ++ [s.take (m.toNat + sepSave)])

/-- Function `strings.genSplit`. -/
def genSplit (s sep : Str) (sepSave : Nat) (n : Int) : List Str :=
  if n = 0 then []
  else if sep = [] then explode s n
  else
    let n : Int := if n < 0 then (Count s sep : Int) + 1 else n
    let n : Int := if n > len s + 1 then len s + 1 else n
    genSplit.loop sep sepSave (n - 1).toNat s []

/-- Function `strings.Split`: `s` sliced into all substrings separated by
`sep`. -/
def Split (s sep : Str) : List Str := genSplit s sep 0 (-1)

/-! ## Builtins and `bytes.Buffer` -/

/-- Go `make([]byte, n)`: a buffer of `n` zero bytes; `none` (panic) for a
negative length. -/
def make (n : Int) : Option Str :=
  if 0 ≤ n then some (List.replicate n.toNat 0) else none

/-- Go arithmetic on `int` (64 bits, two's complement): the value that the
mathematical result `x` of an operation has after wrap-around, between
`-2^63` and `2^63 - 1`. -/
def wrapInt (x : Int) : Int :=
  (x + 9223372036854775808) % 18446744073709551616 - 9223372036854775808

/-- Go `make([]byte, 0, cap)` for a capacity `cap` of type `int`: an empty
buffer; `none` (panic) for a negative capacity, and for a value that is not an
`int`. -/
def makeCap (cap : Int) : Option Str :=
  if 0 ≤ cap ∧ cap < 9223372036854775808 then some [] else none

/-- Go `copy(b[bp:], src)`: copies `min(len(b) - bp, len(src))` bytes of `src`
into `b` at offset `bp`; yields the updated buffer and the number of bytes
copied, or `none` when the slice expression `b[bp:]` panics. -/
def copyAt (b : Str) (bp : Int) (src : Str) : Option (Str × Int) :=
  if 0 ≤ bp ∧ bp ≤ len b then
    let k := min (b.length - bp.toNat) src.length
    some (b.take bp.toNat ++ src.take k ++ b.drop (bp.toNat + k), (k : Int))
  else none

/-- Type `bytes.Buffer`, reduced to its contents. -/
structure Buffer where
  /-- The bytes written so far. -/
  buf : Str

/-- Function `bytes.NewBuffer`. -/
def NewBuffer (bs : Str) : Buffer := ⟨bs⟩

/-- Method `(*Buffer).WriteString`: appends, growing the buffer as needed. -/
def Buffer.WriteString (b : Buffer) (s : Str) : Buffer := ⟨b.buf ++ s⟩

/-- Method `(*Buffer).String`. -/
def Buffer.String (b : Buffer) : Str := b.buf

/-! ## `SplitAtN`, `SplitAtLastN`, `MidIndex`, `Seperate` -/

/-- Loop of `SplitAtN` (string.go, lines 61-67): the first argument is the
number of iterations left, the state is `(str, index, idx)`. -/
def SplitAtN.loop (sep : Str) : Nat → Str → Int → Int → Option (Int × Int)
  | 0, _, index, idx => some (index, idx)
  | k + 1, str, index, _ =>
    let idx := Index str sep
    if idx = -1 then some (index, idx)
    else do
      let str ← sliceFrom str (idx + len sep)
      SplitAtN.loop sep k str (index + idx) idx

/-- Source `SplitAtN` (string.go, lines 58-74). -/
def SplitAtN (str sep : Str) (n : Int) : Option Int := do
  let r ← SplitAtN.loop sep n.toNat str 0 (-1)
  if r.2 = -1 then pure (-1) else pure (r.1 + (n - 1) * len sep)

/-- Loop of `SplitAtLastN` (string.go, lines 78-83): the state is
`(str, index)`. -/
def SplitAtLastN.loop (sep : Str) : Nat → Str → Int → Option Int
  | 0, _, index => some index
  | k + 1, str, _ =>
    let index := LastIndex str sep
    if index = -1 then some index
    else do
      let str ← sliceTo str index
      SplitAtLastN.loop sep k str index

/-- Source `SplitAtLastN` (string.go, lines 76-85); the named result `index`
starts at zero. -/
def SplitAtLastN (str sep : Str) (n : Int) : Option Int :=
  SplitAtLastN.loop sep n.toNat str 0

/-- Source `MidIndex` (string.go, lines 115-122). -/
def MidIndex (s : Str) (sep : Byte) : Int :=
  let i := IndexByte s sep
  if i > 0 ∧ i < len s - 1 then i else -1

/-- Source `Seperate` (string.go, lines 87-94). -/
def Seperate (s : Str) (sep : Byte) : Option (Str × Str) :=
  let i := MidIndex s sep
  if i > 0 then do
    let a ← sliceTo s i
    let b ← sliceFrom s (i + 1)
    pure (a, b)
  else pure ([], [])

/-! ## `RepeatJoin`, `SuffixJoin` -/

/-- Loop of `RepeatJoin` (string.go, lines 137-140); the first argument is the
number of iterations left. -/
def RepeatJoin.loop (s sep : Str) : Nat → Buffer → Buffer
  | 0, buf => buf
  | k + 1, buf => RepeatJoin.loop s sep k ((buf.WriteString sep).WriteString s)

/-- Source `RepeatJoin` (string.go, lines 124-143).  The capacity
`(len(s)+len(sep))*count-len(sep)` is an `int` expression: every operation
wraps around, and `make` panics when the wrapped capacity is negative.  When
the capacity does not wrap it is exactly the number of bytes written, so no
write grows the buffer; the size limit of a growing `bytes.Buffer` is not
modelled. -/
def RepeatJoin (s sep : Str) (count : Int) : Option Str :=
  if count ≤ 0 then some []
  else if count = 1 then some s
  else if count = 2 then some (s ++ sep ++ s)
  else do
    let bs ← makeCap (wrapInt (wrapInt (wrapInt (len s + len sep) * count) - len sep))
    let buf := NewBuffer bs
    let buf := buf.WriteString s
    let buf := RepeatJoin.loop s sep (count - 1).toNat buf
    pure buf.String

/-- Size loop of `SuffixJoin` (string.go, lines 154-156). -/
def SuffixJoin.size (suffix : Str) : List Str → Int → Int
  | [], n => n
  | x :: xs, n => SuffixJoin.size suffix xs (n + (len x + len suffix))

/-- Write loop of `SuffixJoin` (string.go, lines 160-164) over `s[1:]`; the
state is the buffer `b` and the write position `bp`. -/
def SuffixJoin.write (suffix sep : Str) : List Str → Str → Int → Option (Str × Int)
  | [], b, bp => some (b, bp)
  | x :: xs, b, bp => do
    let r ← copyAt b bp sep
    let bp := bp + r.2
    let r ← copyAt r.1 bp x
    let bp := bp + r.2
    let r ← copyAt r.1 bp suffix
    let bp := bp + r.2
    SuffixJoin.write suffix sep xs r.1 bp

/-- General path of `SuffixJoin` (string.go, lines 153-165): yields the final
buffer `b`, the final write position `bp` and the buffer size `n`. -/
def SuffixJoin.general (s : List Str) (suffix sep : Str) : Option (Str × Int × Int) :=
  match s with
  | [] => none
  | x0 :: rest => do
    let n := SuffixJoin.size suffix s (len sep * ((s.length : Int) - 1))
    let b ← make n
    let r ← copyAt b 0 x0
    let bp := r.2
    let r ← copyAt r.1 bp suffix
    let bp := bp + r.2
    let r ← SuffixJoin.write suffix sep rest r.1 bp
    pure (r.1, r.2, n)

/-- Source `SuffixJoin` (string.go, lines 145-166). -/
def SuffixJoin (s : List Str) (suffix sep : Str) : Option Str :=
  if s.length = 0 then some []
  else if s.length = 1 then (s.get? 0).map (fun x => x ++ suffix)
  else (SuffixJoin.general s suffix sep).map (fun r => r.1)

/-! ## Standard library: `strconv` -/

/-- The decimal digit `'0' + d` as a byte. -/
def digitByte (d : Nat) : Byte := Fin.ofNat (48 + d % 10)

/-- Loop of `strconv.formatBits` for base 10:
`for u >= 10 { q := u / 10; a[i] = byte('0' + u - q*10); u = q }` followed by
`a[i] = byte('0' + u)`.  The first argument bounds the number of iterations,
the last one is the part of the digit buffer already written. -/
def formatBits.loop : Nat → Nat → Str → Str
  | 0, u, a => digitByte u :: a
  | k + 1, u, a =>
    if u ≥ 10 then formatBits.loop k (u / 10) (digitByte (u % 10) :: a)
    else digitByte u :: a

/-- Function `strconv.FormatUint(u, 10)`: the decimal representation of `u`. -/
def FormatUint (u : Nat) : Str := formatBits.loop u u []

/-- Function `strconv.Itoa`: the decimal representation of `i`, with a leading
minus sign for a negative `i`. -/
def Itoa (i : Int) : Str :=
  if i < 0 then 45 :: FormatUint (-i).toNat else FormatUint i.toNat

/-! ## `TrimAfter`, `LastIndexByte`, `Compare`, `RemoveSpace`, `JoinInt`, `JoinUint` -/

/-- Source `TrimAfter` (string.go, lines 50-56). -/
def TrimAfter (s delimiter : Str) : Option Str :=
  let idx := Index s delimiter
  if idx ≥ 0 then do
    let s ← sliceTo s idx
    pure (TrimSpace s)
  else pure (TrimSpace s)

/-- Loop of `LastIndexByte` (string.go, lines 97-101),
`for l := len(s) - 1; l >= 0; l-- { if s[l] == b { return l } }`.  The first
argument bounds the number of iterations; the result of the loop is the
returned index, or `-1` once the loop is left. -/
def LastIndexByte.loop (s : Str) (b : Byte) : Nat → Int → Option Int
  | 0, _ => some (-1)
  | k + 1, l =>
    if l ≥ 0 then do
      let c ← byteAt s l
      if c = b then pure l else LastIndexByte.loop s b k (l - 1)
    else some (-1)

/-- Source `LastIndexByte` (string.go, lines 96-103). -/
def LastIndexByte (s : Str) (b : Byte) : Option Int :=
  LastIndexByte.loop s b s.length (len s - 1)

/-- Loop of `Compare` (string.go, lines 200-206),
`for i := 0; i < l1 && i < l2; i++ { ... }`.  The first argument bounds the
number of iterations.  The result is `some r` when the loop returns `r` and
`none` when the loop is left without a return. -/
def Compare.loop (s1 s2 : Str) : Nat → Int → Option (Option Int)
  | 0, _ => some none
  | k + 1, i =>
    if i < len s1 ∧ i < len s2 then do
      let a ← byteAt s1 i
      let b ← byteAt s2 i
      if a < b then pure (some (-1))
      else if a > b then pure (some 1)
      else Compare.loop s1 s2 k (i + 1)
    else some none

/-- Source `Compare` (string.go, lines 196-215). -/
def Compare (s1 s2 : Str) : Option Int := do
  let l1 := len s1
  let l2 := len s2
  let r ← Compare.loop s1 s2 (min s1.length s2.length) 0
  match r with
  | some v => pure v
  | none =>
    if l1 < l2 then pure (-1)
    else if l1 = l2 then pure 0
    else pure 1

/-- Go assignment `bs[idx] = c` on a byte buffer; `none` when the index is out
of range (run-time panic). -/
def setAt (bs : Str) (idx : Int) (c : Byte) : Option Str :=
  if 0 ≤ idx ∧ idx < len bs then some (bs.set idx.toNat c) else none

/-- Loop of `RemoveSpace` (string.go, lines 221-226),
`for i := 0; i < end; i++ { if !unibyte.IsSpace(s[i]) { bs[idx] = s[i]; idx++ } }`.
The whitespace predicate `unibyte.IsSpace` is a parameter.  The first numeric
argument bounds the number of iterations; the state is `(i, bs, idx)`. -/
def RemoveSpace.loop (isSpace : Byte → Bool) (s : Str) : Nat → Int → Str → Int →
    Option (Str × Int)
  | 0, _, bs, idx => some (bs, idx)
  | k + 1, i, bs, idx =>
    if i < len s then do
      let c ← byteAt s i
      if !isSpace c then do
        let bs ← setAt bs idx c
        RemoveSpace.loop isSpace s k (i + 1) bs (idx + 1)
      else RemoveSpace.loop isSpace s k (i + 1) bs idx
    else some (bs, idx)

/-- Source `RemoveSpace` (string.go, lines 217-228), for the whitespace
predicate `isSpace`. -/
def RemoveSpace (isSpace : Byte → Bool) (s : Str) : Option Str := do
  let bs ← make (len s)
  let r ← RemoveSpace.loop isSpace s s.length 0 bs 0
  sliceTo r.1 r.2

/-- Loop of `JoinInt` (string.go, lines 173-176) over `v[1:]`. -/
def JoinInt.loop (sep : Str) : List Int → Buffer → Buffer
  | [], buf => buf
  | s :: rest, buf => JoinInt.loop sep rest ((buf.WriteString sep).WriteString (Itoa s))

/-- Source `JoinInt` (string.go, lines 168-180). -/
def JoinInt (v : List Int) (sep : Str) : Option Str :=
  if v.length > 0 then
    (v.get? 0).map fun v0 =>
      let buf := NewBuffer []
      let buf := buf.WriteString (Itoa v0)
      let buf := JoinInt.loop sep (v.drop 1) buf
      buf.String
  else some []

/-- Loop of `JoinUint` (string.go, lines 187-190) over `v[1:]`. -/
def JoinUint.loop (sep : Str) : List Nat → Buffer → Buffer
  | [], buf => buf
  | s :: rest, buf => JoinUint.loop sep rest ((buf.WriteString sep).WriteString (FormatUint s))

/-- Source `JoinUint` (string.go, lines 182-194). -/
def JoinUint (v : List Nat) (sep : Str) : Option Str :=
  if v.length > 0 then
    (v.get? 0).map fun v0 =>
      let buf := NewBuffer []
      let buf := buf.WriteString (FormatUint v0)
      let buf := JoinUint.loop sep (v.drop 1) buf
      buf.String
  else some []

/-! ## Specification-side definitions -/

/-- The bytes written by the write loop of `SuffixJoin` for the elements after
the first one. -/
def tailBytes (suffix sep : Str) (xs : List Str) : Str :=
  (xs.map (fun x => sep ++ x ++ suffix)).flatten

/-- The number of bytes the write loop of `SuffixJoin` produces. -/
def tailSize (suffix sep : Str) (xs : List Str) : Nat :=
  (xs.map (fun x => sep.length + x.length + suffix.length)).sum

/-- The buffer size `len(sep)*(n-1) + sum(len(x)+len(suffix))` of the
specification, for the sequence `strs` of `n` strings. -/
def bufferSize (suffix sep : Str) (strs : List Str) : Int :=
  len sep * ((strs.length : Int) - 1) + (strs.map (fun x => len x + len suffix)).sum

/-- The strings of `x :: xs` joined by the one-byte separator `c`. -/
def joined (c : Byte) (x : Str) : List Str → Str
  | [] => x
  | y :: ys => x ++ c :: joined c y ys


/-- Byte `c` occurs in `s` at index `i` and nowhere before `i`. -/
def FirstByteAt (s : Str) (c : Byte) (i : Nat) : Prop :=
  s.get? i = some c ∧ ∀ j, j < i → s.get? j ≠ some c

instance FirstByteAt.decidable (s : Str) (c : Byte) (i : Nat) :
    Decidable (FirstByteAt s c i) := by
  unfold FirstByteAt; infer_instance

/-- The string `s` repeated `n` times with `sep` in between, defined by
appending one more copy at a time. -/
def repeated (s sep : Str) : Nat → Str
  | 0 => []
  | 1 => s
  | n + 2 => repeated s sep (n + 1) ++ sep ++ s


/-- The string `sep` occurs in `s` at index `p`: the `len(sep)` bytes of `s`
starting at `p` exist and equal `sep`. -/
def OccursAt (s sep : Str) (p : Nat) : Prop :=
  p + sep.length ≤ s.length ∧ (s.drop p).take sep.length = sep

instance OccursAt.decidable (s sep : Str) (p : Nat) : Decidable (OccursAt s sep p) := by
  unfold OccursAt; infer_instance

/-- Index `p` is the first occurrence of `sep` in `s` at or after `start`. -/
def FirstFrom (s sep : Str) (start p : Nat) : Prop :=
  start ≤ p ∧ OccursAt s sep p ∧ ∀ q, q < p → start ≤ q → ¬ OccursAt s sep q

instance FirstFrom.decidable (s sep : Str) (start p : Nat) :
    Decidable (FirstFrom s sep start p) := by
  unfold FirstFrom; infer_instance

/-- Index `p` is the start of the `n`-th occurrence of `sep` in `s` when
occurrences are found left to right from `start` and each search resumes
immediately after the end of the previous occurrence. -/
def NthFrom (s sep : Str) : Nat → Nat → Nat → Prop
  | 0, _, _ => False
  | 1, start, p => FirstFrom s sep start p
  | n + 2, start, p =>
    ∃ p1, p1 ≤ p ∧ FirstFrom s sep start p1 ∧ NthFrom s sep (n + 1) (p1 + sep.length) p

instance NthFrom.decidable (s sep : Str) :
    (n start p : Nat) → Decidable (NthFrom s sep n start p)
  | 0, _, _ => isFalse (fun h => h)
  | 1, start, p => FirstFrom.decidable s sep start p
  | n + 2, start, p =>
    have : ∀ p1, Decidable (NthFrom s sep (n + 1) (p1 + sep.length) p) :=
      fun p1 => NthFrom.decidable s sep (n + 1) (p1 + sep.length) p
    decidable_of_iff (∃ p1, p1 < p + 1 ∧ FirstFrom s sep start p1
        ∧ NthFrom s sep (n + 1) (p1 + sep.length) p)
      ⟨fun ⟨p1, h1, h2⟩ => ⟨p1, Nat.lt_succ_iff.mp h1, h2⟩,
       fun ⟨p1, h1, h2⟩ => ⟨p1, Nat.lt_succ_iff.mpr h1, h2⟩⟩

/-- Index `p` is the last occurrence of `sep` in `s` that lies inside
`s[:stop]`. -/
def LastBefore (s sep : Str) (stop p : Nat) : Prop :=
  p + sep.length ≤ stop ∧ OccursAt s sep p
    ∧ ∀ q, q ≤ stop → p < q → q + sep.length ≤ stop → ¬ OccursAt s sep q

instance LastBefore.decidable (s sep : Str) (stop p : Nat) :
    Decidable (LastBefore s sep stop p) := by
  unfold LastBefore; infer_instance

/-- Index `p` is the start of the `n`-th occurrence of `sep` in `s` when
occurrences are found right to left inside `s[:stop]` and each search is
restricted to the part before the start of the previously found occurrence. -/
def NthLastBefore (s sep : Str) : Nat → Nat → Nat → Prop
  | 0, _, _ => False
  | 1, stop, p => LastBefore s sep stop p
  | n + 2, stop, p =>
    ∃ p1, p1 ≤ stop ∧ LastBefore s sep stop p1 ∧ NthLastBefore s sep (n + 1) p1 p

instance NthLastBefore.decidable (s sep : Str) :
    (n stop p : Nat) → Decidable (NthLastBefore s sep n stop p)
  | 0, _, _ => isFalse (fun h => h)
  | 1, stop, p => LastBefore.decidable s sep stop p
  | n + 2, stop, p =>
    have : ∀ p1, Decidable (NthLastBefore s sep (n + 1) p1 p) :=
      fun p1 => NthLastBefore.decidable s sep (n + 1) p1 p
    decidable_of_iff (∃ p1, p1 < stop + 1 ∧ LastBefore s sep stop p1
        ∧ NthLastBefore s sep (n + 1) p1 p)
      ⟨fun ⟨p1, h1, h2⟩ => ⟨p1, Nat.lt_succ_iff.mp h1, h2⟩,
       fun ⟨p1, h1, h2⟩ => ⟨p1, Nat.lt_succ_iff.mpr h1, h2⟩⟩


/-- The sign of the byte-wise comparison of two strings. -/
def compareBytes : Str → Str → Int
  | [], [] => 0
  | [], _ :: _ => -1
  | _ :: _, [] => 1
  | a :: as, b :: bs => if a < b then -1 else if a > b then 1 else compareBytes as bs

/-- Strict byte-wise lexicographic order: a proper prefix sorts before its
extensions, otherwise the first differing byte decides. -/
def LexLt : Str → Str → Prop
  | [], [] => False
  | [], _ :: _ => True
  | _ :: _, [] => False
  | a :: as, b :: bs => a < b ∨ (a = b ∧ LexLt as bs)

instance LexLt.decidable : (s1 s2 : Str) → Decidable (LexLt s1 s2)
  | [], [] => isFalse (fun h => h)
  | [], _ :: _ => isTrue trivial
  | _ :: _, [] => isFalse (fun h => h)
  | a :: as, b :: bs =>
    have : Decidable (LexLt as bs) := LexLt.decidable as bs
    inferInstanceAs (Decidable (a < b ∨ (a = b ∧ LexLt as bs)))


/-- The number denoted by a string of decimal digits. -/
def decimalValue (s : Str) : Nat :=
  s.foldl (fun acc d => 10 * acc + (d.val - 48)) 0

end Strings2

namespace Strings2

/-! ## Facts about the data model -/

theorem len_nil : len ([] : Str) = 0 := rfl

theorem len_cons (c : Byte) (s : Str) : len (c :: s) = len s + 1 := by
  simp [len]

theorem len_append (s t : Str) : len (s ++ t) = len s + len t := by
  simp [len]

theorem len_nonneg (s : Str) : 0 ≤ len s := by
  simp [len]

theorem byteAt_zero_cons (c : Byte) (s : Str) : byteAt (c :: s) 0 = some c := by
  simp [byteAt, len]

theorem byteAt_last_concat (s : Str) (c : Byte) : byteAt (s ++ [c]) (len (s ++ [c]) - 1) = some c := by
  simp [byteAt, len]

theorem slice_inner (q r : Byte) (s : Str) :
    slice (q :: (s ++ [r])) 1 (len (q :: (s ++ [r])) - 1) = some s := by
  simp [slice, len]

/-! ## Facts about `strings.TrimSpace` -/

/-- A string whose first and last bytes are ASCII and not white space is left
unchanged by `strings.TrimSpace`. -/
theorem TrimSpace_delimited (q r : Byte) (s : Str)
    (hq : q.val < RuneSelf) (hq0 : asciiSpace q = 0)
    (hr : r.val < RuneSelf) (hr0 : asciiSpace r = 0) :
    TrimSpace (q :: (s ++ [r])) = q :: (s ++ [r]) := by
  have h1 : TrimSpace.startLoop (q :: (s ++ [r])) 0 = (0, false) := by
    simp [TrimSpace.startLoop, hq, hq0]
  have h2 : ∀ k, TrimSpace.stopLoop (r :: (s.reverse ++ [q])) k = (k, false) := by
    intro k
    simp [TrimSpace.stopLoop, hr, hr0]
  simp only [TrimSpace, h1]
  simp [h2]

/-- The quote characters are ASCII and not white space. -/
theorem quote_ascii (q : Byte) (hq : q = 39 ∨ q = 34 ∨ q = 96) :
    q.val < RuneSelf ∧ asciiSpace q = 0 := by
  rcases hq with h | h | h <;> subst h <;> decide

/-! ## `TrimQuote` -/

theorem TrimQuote_of_trim_nil (str : Str) (h : TrimSpace str = []) :
    TrimQuote str = some ([], none) := by
  simp [TrimQuote, h, len]

theorem TrimQuote_of_trim_unquoted (str : Str) (c : Byte) (rest : Str)
    (h : TrimSpace str = c :: rest) (hc : ¬ (c = 39 ∨ c = 34 ∨ c = 96)) :
    TrimQuote str = some (c :: rest, none) := by
  have hl : len (c :: rest) > 0 := by simp [len]
  simp only [TrimQuote, h, hl, byteAt_zero_cons]
  simp [hc]

theorem TrimQuote_of_trim_quoted (str : Str) (c : Byte) (rest : Str)
    (h : TrimSpace str = c :: rest) (hc : c = 39 ∨ c = 34 ∨ c = 96) :
    TrimQuote str =
      (byteAt (c :: rest) (len (c :: rest) - 1)).bind fun e =>
        if e = c then (slice (c :: rest) 1 (len (c :: rest) - 1)).bind fun r => some (r, none)
        else some ([], some GoError.ErrQuoteNotMatch) := by
  have hl : len (c :: rest) > 0 := by simp [len]
  simp only [TrimQuote, h, hl, byteAt_zero_cons]
  simp [hc]

/-- Claim C1, amended: for every string `s` and every quote character `q` among
the single quote, the double quote and the backquote, `TrimQuote` applied to
`q ++ s ++ q` returns `s` itself with no error; the interior is not trimmed, so
the result is the trimmed `s` whenever trimming leaves `s` unchanged. -/
theorem TrimQuote_wrapped (s : Str) (q : Byte) (hq : q = 39 ∨ q = 34 ∨ q = 96) :
    TrimQuote ([q] ++ s ++ [q]) = some (s, none)
      ∧ (TrimSpace s = s → TrimQuote ([q] ++ s ++ [q]) = some (TrimSpace s, none)) := by
  have h : TrimQuote ([q] ++ s ++ [q]) = some (s, none) := by
    have ha := quote_ascii q hq
    have ht : TrimSpace ([q] ++ s ++ [q]) = q :: (s ++ [q]) := by
      simpa using TrimSpace_delimited q q s ha.1 ha.2 ha.1 ha.2
    rw [TrimQuote_of_trim_quoted _ q (s ++ [q]) ht hq]
    have h1 : byteAt (q :: (s ++ [q])) (len (q :: (s ++ [q])) - 1) = some q := by
      simpa using byteAt_last_concat (q :: s) q
    rw [h1, slice_inner]
    simp
  exact ⟨h, fun e => by rw [e]; exact h⟩

/-- Witness for `TrimQuote_wrapped`: the strings `" a"` and `"a"` between double
quotes. -/
theorem TrimQuote_wrapped_witness :
    TrimQuote ([34] ++ [32, 97] ++ [34]) = some ([32, 97], none)
      ∧ TrimQuote ([34] ++ [97] ++ [34]) = some (TrimSpace [97], none) :=
  ⟨(TrimQuote_wrapped [32, 97] 34 (by decide)).1,
   (TrimQuote_wrapped [97] 34 (by decide)).2 (by decide)⟩

/-- Claim C1 as stated fails: for `s = " a"` between double quotes `TrimQuote`
returns `" a"`, whereas the trimmed `s` is `"a"`. -/
theorem TrimQuote_wrapped_not_trimmed :
    TrimSpace [32, 97] = [97] ∧
    TrimQuote ([34] ++ [32, 97] ++ [34]) = some ([32, 97], none) ∧
    ¬ (∀ (s : Str) (q : Byte), (q = 39 ∨ q = 34 ∨ q = 96) →
        TrimQuote ([q] ++ s ++ [q]) = some (TrimSpace s, none)) := by
  refine ⟨by decide, by decide, fun h => ?_⟩
  have := h [32, 97] 34 (by decide)
  revert this
  decide

/-- When the trimmed input is a lone quote character, the slice expression
`str[1 : l-1]` is `str[1:0]` and the call panics. -/
theorem TrimQuote_lone_quote (str : Str) (q : Byte) (hq : q = 39 ∨ q = 34 ∨ q = 96)
    (h : TrimSpace str = [q]) : TrimQuote str = none := by
  rw [TrimQuote_of_trim_quoted str q [] h hq]
  simp [byteAt, slice, len]

/-- Claim C2, evaluation at the failing inputs: on a lone quote character
(also surrounded by white space) `TrimQuote` panics in `str[1 : l-1]`; it does
not return `ErrQuoteNotMatch`. -/
theorem TrimQuote_lone_quote_panics :
    TrimQuote [34] = none ∧ TrimQuote [39] = none ∧ TrimQuote [96] = none
      ∧ TrimQuote [32, 34, 10] = none
      ∧ TrimQuote [34] ≠ some ([], some GoError.ErrQuoteNotMatch) := by
  decide

/-- An index inside the string never panics. -/
theorem byteAt_in_range (s : Str) (i : Int) (h0 : 0 ≤ i) (h1 : i < len s) :
    ∃ e, byteAt s i = some e := by
  have h : i.toNat < s.length := by simp [len] at h1; omega
  refine ⟨s.get ⟨i.toNat, h⟩, ?_⟩
  simp [byteAt, h0, h1, List.get?_eq_get h]

/-- Claim C3: when the trimmed input begins with a quote character `c` and its
last byte differs from `c`, `TrimQuote` returns the empty string with
`ErrQuoteNotMatch`; when the trimmed input is empty or does not begin with a
quote character, `TrimQuote` returns the trimmed input with no error. -/
theorem TrimQuote_mismatch_or_unquoted (str : Str) :
    (∀ c : Byte, byteAt (TrimSpace str) 0 = some c → (c = 39 ∨ c = 34 ∨ c = 96) →
        byteAt (TrimSpace str) (len (TrimSpace str) - 1) ≠ some c →
        TrimQuote str = some ([], some GoError.ErrQuoteNotMatch))
    ∧ (TrimSpace str = [] ∨
        (∃ c : Byte, byteAt (TrimSpace str) 0 = some c ∧ ¬ (c = 39 ∨ c = 34 ∨ c = 96)) →
        TrimQuote str = some (TrimSpace str, none)) := by
  constructor
  · intro c h0 hc hlast
    cases ht : TrimSpace str with
    | nil => rw [ht] at h0; simp [byteAt, len] at h0
    | cons d rest =>
      rw [ht] at h0 hlast
      rw [byteAt_zero_cons] at h0
      have hdc : d = c := Option.some.inj h0
      rw [hdc] at ht hlast
      rw [TrimQuote_of_trim_quoted str c rest ht hc]
      obtain ⟨e, he⟩ := byteAt_in_range (c :: rest) (len (c :: rest) - 1)
        (by simp [len]) (by simp [len])
      rw [he] at hlast
      have hne : e ≠ c := fun hh => hlast (by rw [hh])
      simp [he, hne]
  · rintro (h | ⟨c, h0, hc⟩)
    · rw [TrimQuote_of_trim_nil str h, h]
    · cases ht : TrimSpace str with
      | nil => rw [ht] at h0; simp [byteAt, len] at h0
      | cons d rest =>
        rw [ht, byteAt_zero_cons] at h0
        have hdc : d = c := Option.some.inj h0
        rw [hdc]
        rw [hdc] at ht
        exact TrimQuote_of_trim_unquoted str c rest ht hc

/-- Witness for `TrimQuote_mismatch_or_unquoted`: the inputs `" \"a'"` and
`" a\" "`. -/
theorem TrimQuote_mismatch_or_unquoted_witness :
    TrimQuote [32, 34, 97, 39] = some ([], some GoError.ErrQuoteNotMatch)
      ∧ TrimQuote [32, 97, 34, 32] = some (TrimSpace [32, 97, 34, 32], none) :=
  ⟨(TrimQuote_mismatch_or_unquoted [32, 34, 97, 39]).1 34 (by decide) (by decide) (by decide),
   (TrimQuote_mismatch_or_unquoted [32, 97, 34, 32]).2 (Or.inr ⟨97, by decide, by decide⟩)⟩

/-! ## `SuffixJoin` -/

theorem copyAt_fill (w src : Str) (m : Nat) (h : src.length ≤ m) :
    copyAt (w ++ List.replicate m 0) (w.length : Int) src
      = some (w ++ src ++ List.replicate (m - src.length) 0, (src.length : Int)) := by
  have hk : min (w.length + m - w.length) src.length = src.length := by
    rw [Nat.add_sub_cancel_left]; exact Nat.min_eq_right h
  simp only [copyAt, len, List.length_append, List.length_replicate, Int.toNat_ofNat]
  rw [if_pos (by constructor <;> omega)]
  simp only [hk]
  rw [List.take_left' rfl, List.take_length, List.drop_append, List.drop_replicate]

theorem length_tailBytes (suffix sep : Str) (xs : List Str) :
    (tailBytes suffix sep xs).length = tailSize suffix sep xs := by
  induction xs with
  | nil => rfl
  | cons x xs ih =>
    simp only [tailBytes, tailSize, List.map_cons, List.flatten_cons, List.length_append,
      List.sum_cons] at ih ⊢
    rw [ih]

theorem SuffixJoin_write_fill (suffix sep : Str) (xs : List Str) (w : Str) (extra : Nat) :
    SuffixJoin.write suffix sep xs
        (w ++ List.replicate (tailSize suffix sep xs + extra) 0) (w.length : Int)
      = some (w ++ tailBytes suffix sep xs ++ List.replicate extra 0,
          ((w.length + tailSize suffix sep xs : Nat) : Int)) := by
  induction xs generalizing w with
  | nil => simp [SuffixJoin.write, tailBytes, tailSize]
  | cons x xs ih =>
    have e : tailSize suffix sep (x :: xs) + extra
        = sep.length + (x.length + (suffix.length + (tailSize suffix sep xs + extra))) := by
      simp only [tailSize, List.map_cons, List.sum_cons]; omega
    simp only [SuffixJoin.write, e]
    rw [copyAt_fill w sep _ (by omega)]
    simp only [Option.bind_eq_bind, Option.some_bind, Nat.add_sub_cancel_left]
    have h1 : (w.length : Int) + (sep.length : Int) = ((w ++ sep).length : Int) := by
      simp only [List.length_append]; push_cast; omega
    rw [h1, copyAt_fill (w ++ sep) x _ (by omega)]
    simp only [Option.some_bind, Nat.add_sub_cancel_left]
    have h2 : ((w ++ sep).length : Int) + (x.length : Int) = ((w ++ sep ++ x).length : Int) := by
      simp only [List.length_append]; push_cast; omega
    rw [h2, copyAt_fill (w ++ sep ++ x) suffix _ (by omega)]
    simp only [Option.some_bind, Nat.add_sub_cancel_left]
    have h3 : ((w ++ sep ++ x).length : Int) + (suffix.length : Int)
        = ((w ++ sep ++ x ++ suffix).length : Int) := by
      simp only [List.length_append]; push_cast; omega
    rw [h3, ih (w ++ sep ++ x ++ suffix)]
    simp only [tailBytes, tailSize, List.map_cons, List.flatten_cons, List.sum_cons,
      List.length_append, List.append_assoc]
    congr 2
    push_cast
    omega

theorem SuffixJoin_size_eq (suffix : Str) (xs : List Str) (n : Int) :
    SuffixJoin.size suffix xs n = n + ((xs.map (fun x => x.length + suffix.length)).sum : Nat) := by
  induction xs generalizing n with
  | nil => simp [SuffixJoin.size]
  | cons x xs ih =>
    simp only [SuffixJoin.size, ih, List.map_cons, List.sum_cons, len]
    push_cast
    omega

theorem intercalate_suffix (suffix sep x0 : Str) (rest : List Str) :
    List.intercalate sep ((x0 :: rest).map (fun x => x ++ suffix))
      = x0 ++ suffix ++ tailBytes suffix sep rest := by
  induction rest generalizing x0 with
  | nil => simp [List.intercalate, tailBytes]
  | cons y ys ih =>
    have := ih y
    simp only [List.intercalate, List.map_cons, List.intersperse, List.flatten_cons, tailBytes,
      List.append_assoc] at this ⊢
    rw [this]


theorem tailSize_eq (suffix sep : Str) (xs : List Str) :
    tailSize suffix sep xs
      = sep.length * xs.length + (xs.map (fun x => x.length + suffix.length)).sum := by
  induction xs with
  | nil => simp [tailSize]
  | cons x xs ih =>
    simp only [tailSize, List.map_cons, List.sum_cons, List.length_cons] at ih ⊢
    rw [ih, Nat.mul_succ]
    omega

theorem bufferSize_eq (suffix sep : Str) (strs : List Str) :
    bufferSize suffix sep strs = len sep * ((strs.length : Int) - 1)
      + ((strs.map (fun x => x.length + suffix.length)).sum : Nat) := by
  unfold bufferSize
  congr 1
  induction strs with
  | nil => simp
  | cons x xs ih =>
    simp only [List.map_cons, List.sum_cons]
    rw [ih]
    simp only [len]
    push_cast
    ring

theorem SuffixJoin_general_eq (x0 : Str) (rest : List Str) (suffix sep : Str) :
    SuffixJoin.general (x0 :: rest) suffix sep
      = some (x0 ++ suffix ++ tailBytes suffix sep rest,
          bufferSize suffix sep (x0 :: rest), bufferSize suffix sep (x0 :: rest)) := by
  have hn : bufferSize suffix sep (x0 :: rest)
      = ((x0.length + (suffix.length + (tailSize suffix sep rest + 0)) : Nat) : Int) := by
    rw [bufferSize_eq, tailSize_eq]
    simp only [List.map_cons, List.sum_cons, List.length_cons, len]
    push_cast
    ring
  simp only [SuffixJoin.general, SuffixJoin_size_eq, ← bufferSize_eq, hn, make,
    Int.toNat_ofNat, Option.bind_eq_bind]
  rw [if_pos (Int.ofNat_nonneg _)]
  simp only [Option.some_bind]
  have h0 := copyAt_fill [] x0 (x0.length + (suffix.length + (tailSize suffix sep rest + 0)))
    (by omega)
  simp only [List.nil_append, List.length_nil, Nat.add_sub_cancel_left] at h0
  have h0' : copyAt (List.replicate (x0.length + (suffix.length + (tailSize suffix sep rest + 0))) 0)
      0 x0 = some (x0 ++ List.replicate (suffix.length + (tailSize suffix sep rest + 0)) 0,
        (x0.length : Int)) := h0
  rw [h0']
  simp only [Option.some_bind]
  rw [copyAt_fill x0 suffix _ (by omega)]
  simp only [Option.some_bind, Nat.add_sub_cancel_left]
  have h1 : (x0.length : Int) + (suffix.length : Int) = ((x0 ++ suffix).length : Int) := by
    simp only [List.length_append]; push_cast; omega
  rw [h1, SuffixJoin_write_fill]
  simp only [Option.some_bind, List.replicate_zero, List.append_nil, List.length_append,
    Option.pure_def]
  congr 3
  omega

theorem len_intercalate_suffix (suffix sep x0 : Str) (rest : List Str) :
    len (x0 ++ suffix ++ tailBytes suffix sep rest) = bufferSize suffix sep (x0 :: rest) := by
  rw [bufferSize_eq]
  simp only [len, List.length_append, length_tailBytes, tailSize_eq, List.map_cons,
    List.sum_cons, List.length_cons]
  push_cast
  ring

/-- The result of `SuffixJoin`: every element followed by `suffix`, with `sep`
between consecutive elements. -/
theorem SuffixJoin_eq_intercalate (strs : List Str) (suffix sep : Str) :
    SuffixJoin strs suffix sep
      = some (List.intercalate sep (strs.map (fun x => x ++ suffix))) := by
  match strs with
  | [] => simp [SuffixJoin, List.intercalate]
  | [x] => simp [SuffixJoin, List.intercalate]
  | x0 :: y :: rest =>
    rw [intercalate_suffix]
    simp [SuffixJoin, SuffixJoin_general_eq]

/-- Claim C5: `SuffixJoin(strs, suffix, sep)` is the concatenation of
`x ++ suffix` for each element in order with `sep` between consecutive
elements (the empty string for the empty sequence, `x ++ suffix` for a single
element); in the general path the buffer size
`len(sep)*(n-1) + sum(len(x)+len(suffix))` equals the final write position, so
the result has exactly that length and no padding byte is left. -/
theorem SuffixJoin_spec (strs : List Str) (suffix sep : Str) :
    SuffixJoin strs suffix sep = some (List.intercalate sep (strs.map (fun x => x ++ suffix)))
    ∧ (strs = [] → SuffixJoin strs suffix sep = some [])
    ∧ (∀ x, strs = [x] → SuffixJoin strs suffix sep = some (x ++ suffix))
    ∧ (2 ≤ strs.length → ∃ b,
        SuffixJoin.general strs suffix sep
          = some (b, bufferSize suffix sep strs, bufferSize suffix sep strs)
        ∧ len b = bufferSize suffix sep strs
        ∧ b = List.intercalate sep (strs.map (fun x => x ++ suffix))
        ∧ SuffixJoin strs suffix sep = some b) := by
  refine ⟨SuffixJoin_eq_intercalate strs suffix sep, ?_, ?_, ?_⟩
  · rintro rfl
    simp [SuffixJoin]
  · rintro x rfl
    simp [SuffixJoin]
  · intro h
    match strs, h with
    | x0 :: y :: rest, _ =>
      refine ⟨x0 ++ suffix ++ tailBytes suffix sep (y :: rest), SuffixJoin_general_eq _ _ _ _,
        len_intercalate_suffix _ _ _ _, (intercalate_suffix _ _ _ _).symm, ?_⟩
      simp [SuffixJoin, SuffixJoin_general_eq]

/-- Witness for `SuffixJoin_spec`: `SuffixJoin(["a","bc",""], ";", ", ")`, the
empty sequence and a single element. -/
theorem SuffixJoin_spec_witness :
    SuffixJoin [[97], [98, 99], []] [59] [44, 32]
      = some [97, 59, 44, 32, 98, 99, 59, 44, 32, 59]
    ∧ SuffixJoin [] [59] [44] = some []
    ∧ SuffixJoin [[97]] [59] [44] = some [97, 59]
    ∧ ∃ b, SuffixJoin.general [[97], [98, 99], []] [59] [44, 32] = some (b, 10, 10)
        ∧ len b = 10 ∧ b = [97, 59, 44, 32, 98, 99, 59, 44, 32, 59]
        ∧ SuffixJoin [[97], [98, 99], []] [59] [44, 32] = some b :=
  ⟨(SuffixJoin_spec [[97], [98, 99], []] [59] [44, 32]).1,
   (SuffixJoin_spec [] [59] [44]).2.1 rfl,
   (SuffixJoin_spec [[97]] [59] [44]).2.2.1 [97] rfl,
   (SuffixJoin_spec [[97], [98, 99], []] [59] [44, 32]).2.2.2 (by decide)⟩

/-! ## `strings.Split` after `SuffixJoin` -/

theorem Index_go_single_cons (c b : Byte) (bs : Str) (i : Nat) :
    Index.go [c] (b :: bs) i = if b = c then (i : Int) else Index.go [c] bs (i + 1) := by
  simp [Index.go]

theorem Index_go_single_skip (c : Byte) (x t : Str) (i : Nat) (h : c ∉ x) :
    Index.go [c] (x ++ t) i = Index.go [c] t (i + x.length) := by
  induction x generalizing i with
  | nil => simp
  | cons b bs ih =>
    have hb : b ≠ c := fun e => h (by simp [e])
    have hbs : c ∉ bs := fun e => h (by simp [e])
    rw [List.cons_append, Index_go_single_cons, if_neg hb, ih _ hbs]
    simp only [List.length_cons]
    congr 1
    omega

theorem Index_single_found (c : Byte) (x t : Str) (h : c ∉ x) :
    Index (x ++ c :: t) [c] = (x.length : Int) := by
  rw [Index, Index_go_single_skip c x _ 0 h, Index_go_single_cons]
  simp

theorem Index_single_absent (c : Byte) (x : Str) (h : c ∉ x) : Index x [c] = -1 := by
  have := Index_go_single_skip c x [] 0 h
  rw [List.append_nil] at this
  rw [Index, this]
  simp [Index.go]

theorem intercalate_eq_joined (c : Byte) (x : Str) (xs : List Str) :
    List.intercalate [c] (x :: xs) = joined c x xs := by
  induction xs generalizing x with
  | nil => simp [List.intercalate, joined]
  | cons y ys ih =>
    have := ih y
    simp only [List.intercalate, List.intersperse, List.flatten_cons, joined] at this ⊢
    rw [this]
    simp

theorem length_joined (c : Byte) (x : Str) (xs : List Str) :
    xs.length ≤ (joined c x xs).length := by
  induction xs generalizing x with
  | nil => simp
  | cons y ys ih =>
    have := ih y
    simp only [joined, List.length_append, List.length_cons]
    omega

theorem genSplit_loop_joined (c : Byte) (x : Str) (xs : List Str)
    (h : ∀ y ∈ x :: xs, c ∉ y) (k : Nat) (hk : xs.length ≤ k) (a : List Str) :
    genSplit.loop [c] 0 k (joined c x xs) a = a ++ x :: xs := by
  induction xs generalizing x k a with
  | nil =>
    have hx : c ∉ x := h x (by simp)
    cases k with
    | zero => simp [genSplit.loop, joined]
    | succ k => simp [genSplit.loop, joined, Index_single_absent c x hx]
  | cons y ys ih =>
    have hx : c ∉ x := h x (by simp)
    cases k with
    | zero => simp at hk
    | succ k =>
      simp only [genSplit.loop, joined, Index_single_found c x _ hx]
      rw [if_neg (by omega)]
      simp only [Int.toNat_ofNat, List.length_singleton, Nat.add_zero]
      rw [List.drop_append, List.take_left' rfl]
      simp only [List.drop_one, List.tail_cons]
      rw [ih y (fun z hz => h z (by simp at hz ⊢; tauto)) k (by simpa using hk)]
      simp

theorem Count_go_joined (c : Byte) (x : Str) (xs : List Str)
    (h : ∀ y ∈ x :: xs, c ∉ y) (k : Nat) (hk : xs.length < k) (n : Nat) :
    Count.go [c] k (joined c x xs) n = n + xs.length := by
  induction xs generalizing x k n with
  | nil =>
    have hx : c ∉ x := h x (by simp)
    cases k with
    | zero => simp at hk
    | succ k => simp [Count.go, joined, Index_single_absent c x hx]
  | cons y ys ih =>
    have hx : c ∉ x := h x (by simp)
    cases k with
    | zero => simp at hk
    | succ k =>
      simp only [Count.go, joined, Index_single_found c x _ hx]
      rw [if_neg (by omega)]
      simp only [Int.toNat_ofNat, List.length_singleton]
      rw [List.drop_append]
      simp only [List.drop_one, List.tail_cons]
      rw [ih y (fun z hz => h z (by simp at hz ⊢; tauto)) k (by simpa using hk)]
      simp only [List.length_cons]
      omega

theorem Split_joined (c : Byte) (x : Str) (xs : List Str) (h : ∀ y ∈ x :: xs, c ∉ y) :
    Split (joined c x xs) [c] = x :: xs := by
  have hl := length_joined c x xs
  have hc : Count (joined c x xs) [c] = xs.length := by
    simp only [Count, List.cons_ne_nil, if_false]
    rw [Count_go_joined c x xs h _ (by omega)]
    simp
  have e0 : ¬ ((-1 : Int) = 0) := by decide
  have e1 : (-1 : Int) < 0 := by decide
  simp only [Split, genSplit, hc, len, e0, e1, if_true, if_false, List.cons_ne_nil]
  rw [if_neg (by omega)]
  have : ((xs.length : Int) + 1 - 1).toNat = xs.length := by simp
  rw [this, genSplit_loop_joined c x xs h _ (le_refl _)]
  simp

/-- Claim C4, amended: for every non-empty sequence `xs` of strings none of
which contains a comma, splitting `SuffixJoin(xs, "", ",")` on `","` yields
back exactly `xs`. -/
theorem Split_SuffixJoin_comma (xs : List Str) (hne : xs ≠ [])
    (hc : ∀ x ∈ xs, (44 : Byte) ∉ x) :
    (SuffixJoin xs [] [44]).map (fun r => Split r [44]) = some xs := by
  match xs, hne with
  | x :: rest, _ =>
    rw [SuffixJoin_eq_intercalate]
    have hid : (x :: rest).map (fun y => y ++ ([] : Str)) = x :: rest := by simp
    rw [hid, intercalate_eq_joined, Option.map_some', Split_joined 44 x rest hc]

/-- Witness for `Split_SuffixJoin_comma`: the sequence `["a", "", "bc"]`. -/
theorem Split_SuffixJoin_comma_witness :
    (SuffixJoin [[97], [], [98, 99]] [] [44]).map (fun r => Split r [44])
      = some [[97], [], [98, 99]] :=
  Split_SuffixJoin_comma [[97], [], [98, 99]] (by decide) (by decide)

/-- Claim C4 as stated fails: the one-element sequence `["a,b"]` is joined to
`"a,b"`, which splits into `["a", "b"]`. -/
theorem Split_SuffixJoin_comma_inside :
    (SuffixJoin [[97, 44, 98]] [] [44]).map (fun r => Split r [44]) = some [[97], [98]]
    ∧ ¬ (∀ xs : List Str, xs ≠ [] →
          (SuffixJoin xs [] [44]).map (fun r => Split r [44]) = some xs) := by
  refine ⟨by decide, fun h => ?_⟩
  have := h [[97, 44, 98]] (by decide)
  revert this
  decide

/-! ## `MidIndex` and `Seperate` -/

theorem sliceTo_nat (s : Str) (i : Nat) (h : i ≤ s.length) : sliceTo s (i : Int) = some (s.take i) := by
  simp [sliceTo, slice, len, h]

theorem sliceFrom_nat (s : Str) (i : Nat) (h : i ≤ s.length) :
    sliceFrom s (i : Int) = some (s.drop i) := by
  simp [sliceFrom, slice, len, h]

theorem FirstByteAt_cons_zero (c : Byte) (s : Str) : FirstByteAt (c :: s) c 0 := by
  simp [FirstByteAt]

theorem FirstByteAt_cons_succ (b c : Byte) (s : Str) (i : Nat) (hb : b ≠ c)
    (h : FirstByteAt s c i) : FirstByteAt (b :: s) c (i + 1) := by
  refine ⟨by simpa using h.1, fun j hj => ?_⟩
  cases j with
  | zero => simpa using hb
  | succ j => simpa using h.2 j (by omega)

theorem FirstByteAt_unique (s : Str) (c : Byte) (i j : Nat)
    (hi : FirstByteAt s c i) (hj : FirstByteAt s c j) : i = j := by
  rcases Nat.lt_trichotomy i j with h | h | h
  · exact absurd hi.1 (hj.2 i h)
  · exact h
  · exact absurd hj.1 (hi.2 j h)

theorem FirstByteAt_lt (s : Str) (c : Byte) (i : Nat) (h : FirstByteAt s c i) : i < s.length := by
  by_contra hn
  have := h.1
  rw [List.get?_eq_none.mpr (by omega)] at this
  cases this

theorem IndexByte_go_spec (c : Byte) (s : Str) (k : Nat) :
    (IndexByte.go c s k = -1 ∧ c ∉ s)
      ∨ ∃ i : Nat, IndexByte.go c s k = ((k + i : Nat) : Int) ∧ FirstByteAt s c i := by
  induction s generalizing k with
  | nil => left; simp [IndexByte.go]
  | cons b bs ih =>
    by_cases hb : b = c
    · right
      refine ⟨0, ?_, ?_⟩
      · simp [IndexByte.go, hb]
      · rw [hb]; exact FirstByteAt_cons_zero c bs
    · rcases ih (k + 1) with ⟨h1, h2⟩ | ⟨i, h1, h2⟩
      · left
        refine ⟨by simp [IndexByte.go, hb, h1], ?_⟩
        simp only [List.mem_cons, not_or]
        exact ⟨fun e => hb e.symm, h2⟩
      · right
        refine ⟨i + 1, ?_, FirstByteAt_cons_succ b c bs i hb h2⟩
        simp only [IndexByte.go, hb, if_false, h1]
        congr 1
        omega

/-- `strings.IndexByte` returns the index of the first occurrence, or `-1` when
the byte does not occur. -/
theorem IndexByte_spec (s : Str) (c : Byte) :
    (IndexByte s c = -1 ∧ c ∉ s) ∨ ∃ i : Nat, IndexByte s c = (i : Int) ∧ FirstByteAt s c i := by
  rcases IndexByte_go_spec c s 0 with h | ⟨i, h1, h2⟩
  · exact Or.inl h
  · exact Or.inr ⟨i, by simpa [IndexByte] using h1, h2⟩

theorem not_FirstByteAt_of_not_mem (s : Str) (c : Byte) (h : c ∉ s) (i : Nat) :
    ¬ FirstByteAt s c i := by
  intro hi
  exact h (List.get?_mem hi.1)

theorem IndexByte_of_FirstByteAt (s : Str) (c : Byte) (i : Nat) (h : FirstByteAt s c i) :
    IndexByte s c = (i : Int) := by
  rcases IndexByte_spec s c with ⟨_, h2⟩ | ⟨j, h1, h2⟩
  · exact absurd h (not_FirstByteAt_of_not_mem s c h2 i)
  · rw [h1, FirstByteAt_unique s c i j h h2]

theorem IndexByte_of_absent (s : Str) (c : Byte) (h : ∀ i, ¬ FirstByteAt s c i) :
    IndexByte s c = -1 := by
  rcases IndexByte_spec s c with ⟨h1, _⟩ | ⟨j, _, h2⟩
  · exact h1
  · exact absurd h2 (h j)

/-- Claim C8: `MidIndex(s, sep)` returns `i` when `i` is the index of the first
occurrence of `sep` in `s` and `0 < i < len(s)-1`, and `-1` in every other case
(`sep` absent, first occurrence at index 0, first occurrence at the last
index); `MidIndex("a,b", ',') = 1`, `MidIndex(",ab", ',') = -1`,
`MidIndex("ab,", ',') = -1`. -/
theorem MidIndex_spec (s : Str) (sep : Byte) :
    (∀ i : Nat, FirstByteAt s sep i →
        MidIndex s sep = if 0 < i ∧ (i : Int) < len s - 1 then (i : Int) else -1)
    ∧ ((∀ i : Nat, ¬ FirstByteAt s sep i) → MidIndex s sep = -1)
    ∧ (FirstByteAt s sep 0 → MidIndex s sep = -1)
    ∧ (∀ i : Nat, FirstByteAt s sep i → (i : Int) = len s - 1 → MidIndex s sep = -1)
    ∧ MidIndex [97, 44, 98] 44 = 1
    ∧ MidIndex [44, 97, 98] 44 = -1
    ∧ MidIndex [97, 98, 44] 44 = -1 := by
  have key : ∀ i : Nat, FirstByteAt s sep i →
      MidIndex s sep = if 0 < i ∧ (i : Int) < len s - 1 then (i : Int) else -1 := by
    intro i hi
    simp only [MidIndex, IndexByte_of_FirstByteAt s sep i hi]
    congr 1
    simp
  refine ⟨key, ?_, ?_, ?_, by decide, by decide, by decide⟩
  · intro h
    simp [MidIndex, IndexByte_of_absent s sep h]
  · intro h
    rw [key 0 h]
    simp
  · intro i hi he
    rw [key i hi, if_neg (by omega)]

/-- Witness for `MidIndex_spec`: the strings `"ab,c,d"`, `"ab"`, `",a,b"` and
`"a,"`. -/
theorem MidIndex_spec_witness :
    MidIndex [97, 98, 44, 99, 44, 100] 44 = 2
    ∧ MidIndex [97, 98] 44 = -1
    ∧ MidIndex [44, 97, 44, 98] 44 = -1
    ∧ MidIndex [97, 44] 44 = -1 :=
  ⟨(MidIndex_spec [97, 98, 44, 99, 44, 100] 44).1 2 (by decide),
   (MidIndex_spec [97, 98] 44).2.1 (by
      intro i hi
      exact not_FirstByteAt_of_not_mem [97, 98] 44 (by decide) i hi),
   (MidIndex_spec [44, 97, 44, 98] 44).2.2.1 (by decide),
   (MidIndex_spec [97, 44] 44).2.2.2.1 1 (by decide) (by decide)⟩


theorem MidIndex_cases (s : Str) (sep : Byte) :
    MidIndex s sep = -1
      ∨ ∃ i : Nat, MidIndex s sep = (i : Int) ∧ FirstByteAt s sep i ∧ 0 < i ∧ i + 1 < s.length := by
  rcases IndexByte_spec s sep with ⟨h1, _⟩ | ⟨i, h1, h2⟩
  · left; simp [MidIndex, h1]
  · by_cases hm : (i : Int) > 0 ∧ (i : Int) < len s - 1
    · right
      refine ⟨i, by simp only [MidIndex, h1]; rw [if_pos hm], h2, by omega, ?_⟩
      have := hm.2
      simp only [len] at this
      omega
    · left
      simp only [MidIndex, h1]
      rw [if_neg hm]

theorem not_mem_take_of_FirstByteAt (s : Str) (c : Byte) (i : Nat) (h : FirstByteAt s c i) :
    c ∉ s.take i := by
  intro hm
  obtain ⟨j, hj, e⟩ := List.getElem_of_mem hm
  have hj' : j < i := by
    have := List.length_take_le i s
    omega
  apply h.2 j hj'
  rw [List.getElem_take] at e
  rw [List.get?_eq_getElem?, List.getElem?_eq_getElem, e]

theorem split_at_FirstByteAt (s : Str) (c : Byte) (i : Nat) (h : FirstByteAt s c i) :
    s.take i ++ [c] ++ s.drop (i + 1) = s := by
  have hlt := FirstByteAt_lt s c i h
  have hc : s[i] = c := by
    have := h.1
    rw [List.get?_eq_getElem?, List.getElem?_eq_getElem hlt] at this
    exact Option.some.inj this
  have := List.take_append_drop i s
  rw [List.drop_eq_getElem_cons hlt, hc] at this
  simpa using this

theorem Seperate_of_mid (s : Str) (sep : Byte) (i : Nat) (hm : MidIndex s sep = (i : Int))
    (h0 : 0 < i) (h1 : i + 1 < s.length) :
    Seperate s sep = some (s.take i, s.drop (i + 1)) := by
  have hpos : (i : Int) > 0 := by omega
  simp only [Seperate, hm]
  rw [if_pos hpos, sliceTo_nat s i (by omega)]
  have : (i : Int) + 1 = ((i + 1 : Nat) : Int) := by push_cast; rfl
  rw [this, sliceFrom_nat s (i + 1) (by omega)]
  rfl

/-- Claim C9: when `MidIndex(s, sep) = i` is not `-1`, `Seperate(s, sep)` is
`(s[:i], s[i+1:])`, the two parts around `sep` rebuild `s`, both are non-empty
and the first contains no `sep`; otherwise `Seperate` returns `("", "")`.
Hence `("", "")` is returned exactly when there is no middle separator.
`Seperate("key=value", '=') = ("key", "value")` and
`Seperate("=value", '=') = ("", "")`. -/
theorem Seperate_spec (s : Str) (sep : Byte) :
    (∀ i : Int, MidIndex s sep = i → i ≠ -1 →
        ∃ a b, Seperate s sep = some (a, b) ∧ sliceTo s i = some a ∧ sliceFrom s (i + 1) = some b
          ∧ a ++ [sep] ++ b = s ∧ a ≠ [] ∧ b ≠ [] ∧ sep ∉ a)
    ∧ (MidIndex s sep = -1 → Seperate s sep = some ([], []))
    ∧ (Seperate s sep = some ([], []) ↔ MidIndex s sep = -1)
    ∧ Seperate [107, 101, 121, 61, 118, 97, 108, 117, 101] 61
        = some ([107, 101, 121], [118, 97, 108, 117, 101])
    ∧ Seperate [61, 118, 97, 108, 117, 101] 61 = some ([], []) := by
  have hneg : MidIndex s sep = -1 → Seperate s sep = some ([], []) := by
    intro h
    simp [Seperate, h]
  refine ⟨?_, hneg, ⟨?_, hneg⟩, by decide, by decide⟩
  · intro i hi hne
    rcases MidIndex_cases s sep with h | ⟨k, hk, hf, h0, h1⟩
    · exact absurd (hi.symm.trans h) hne
    · have hik : i = (k : Int) := hi.symm.trans hk
      subst hik
      refine ⟨s.take k, s.drop (k + 1), Seperate_of_mid s sep k hk h0 h1,
        sliceTo_nat s k (by omega), ?_, split_at_FirstByteAt s sep k hf, ?_, ?_,
        not_mem_take_of_FirstByteAt s sep k hf⟩
      · have : (k : Int) + 1 = ((k + 1 : Nat) : Int) := by push_cast; rfl
        rw [this, sliceFrom_nat s (k + 1) (by omega)]
      · intro e
        have := congrArg List.length e
        simp only [List.length_take, List.length_nil] at this
        omega
      · intro e
        have := congrArg List.length e
        simp only [List.length_drop, List.length_nil] at this
        omega
  · intro h
    rcases MidIndex_cases s sep with hm | ⟨k, hk, hf, h0, h1⟩
    · exact hm
    · rw [Seperate_of_mid s sep k hk h0 h1] at h
      have := congrArg (fun p => (p.1).length) (Option.some.inj h)
      simp only [List.length_take, List.length_nil] at this
      omega

/-- Witness for `Seperate_spec`: the strings `"a=b=c"` and `"a="`. -/
theorem Seperate_spec_witness :
    (∃ a b, Seperate [97, 61, 98, 61, 99] 61 = some (a, b)
        ∧ sliceTo [97, 61, 98, 61, 99] 1 = some a
        ∧ sliceFrom [97, 61, 98, 61, 99] (1 + 1) = some b
        ∧ a ++ [61] ++ b = [97, 61, 98, 61, 99] ∧ a ≠ [] ∧ b ≠ [] ∧ (61 : Byte) ∉ a)
    ∧ Seperate [97, 61] 61 = some ([], []) :=
  ⟨(Seperate_spec [97, 61, 98, 61, 99] 61).1 1 (by decide) (by decide),
   (Seperate_spec [97, 61] 61).2.1 (by decide)⟩

/-! ## `RepeatJoin` -/

theorem RepeatJoin_loop_eq (s sep : Str) (k j : Nat) :
    RepeatJoin.loop s sep k ⟨repeated s sep (j + 1)⟩ = ⟨repeated s sep (j + 1 + k)⟩ := by
  induction k generalizing j with
  | zero => rfl
  | succ k ih =>
    have h := ih (j + 1)
    have e : j + 1 + 1 + k = j + 1 + (k + 1) := by omega
    rw [e] at h
    rw [← h]
    simp only [RepeatJoin.loop, Buffer.WriteString, repeated, List.append_assoc]

/-- Wrap-around leaves the integers multiples of `2^64` apart. -/
theorem wrapInt_eq_add_mul (x : Int) : ∃ k : Int, wrapInt x = x + 18446744073709551616 * k :=
  ⟨-((x + 9223372036854775808) / 18446744073709551616), by unfold wrapInt; omega⟩

/-- A value in the range of `int` is what wrap-around yields from any integer
that differs from it by a multiple of `2^64`. -/
theorem wrapInt_add_mul_of_range (c k : Int) (h0 : -9223372036854775808 ≤ c)
    (h1 : c < 9223372036854775808) : wrapInt (c + 18446744073709551616 * k) = c := by
  unfold wrapInt
  omega

/-- The capacity that `RepeatJoin` computes in `int` arithmetic is the
mathematical one whenever that one is in the range of `int`. -/
theorem RepeatJoin_capacity (s sep : Str) (count : Int)
    (h0 : -9223372036854775808 ≤ (len s + len sep) * count - len sep)
    (h1 : (len s + len sep) * count - len sep < 9223372036854775808) :
    wrapInt (wrapInt (wrapInt (len s + len sep) * count) - len sep)
      = (len s + len sep) * count - len sep := by
  obtain ⟨k1, hk1⟩ := wrapInt_eq_add_mul (len s + len sep)
  obtain ⟨k2, hk2⟩ := wrapInt_eq_add_mul (wrapInt (len s + len sep) * count)
  have e : wrapInt (wrapInt (len s + len sep) * count) - len sep
      = ((len s + len sep) * count - len sep) + 18446744073709551616 * (k1 * count + k2) := by
    rw [hk2, hk1]
    ring
  rw [e]
  exact wrapInt_add_mul_of_range _ _ h0 h1

theorem makeCap_repeat (s sep : Str) (count : Int) (h : 1 ≤ count)
    (hcap : (len s + len sep) * count - len sep < 9223372036854775808) :
    makeCap (wrapInt (wrapInt (wrapInt (len s + len sep) * count) - len sep)) = some [] := by
  have h1 := len_nonneg s
  have h2 := len_nonneg sep
  have h3 : 0 ≤ (len s + len sep) * count - len sep := by nlinarith
  rw [RepeatJoin_capacity s sep count (by omega) hcap]
  simp only [makeCap]
  rw [if_pos ⟨h3, hcap⟩]

/-- When the capacity wraps to a negative `int`, `make` panics. -/
theorem RepeatJoin_panics (s sep : Str) (count : Int) (h : 3 ≤ count)
    (hneg : wrapInt (wrapInt (wrapInt (len s + len sep) * count) - len sep) < 0) :
    RepeatJoin s sep count = none := by
  have h0 : ¬ (count ≤ 0) := by omega
  have h1 : ¬ (count = 1) := by omega
  have h2 : ¬ (count = 2) := by omega
  have hm : makeCap (wrapInt (wrapInt (wrapInt (len s + len sep) * count) - len sep))
      = none := by
    simp only [makeCap]
    rw [if_neg (fun hc => by omega)]
  simp only [RepeatJoin, h0, h1, h2, if_false, hm, Option.bind_eq_bind, Option.none_bind]

theorem RepeatJoin_nat (s sep : Str) (n : Nat)
    (hcap : 3 ≤ n → (len s + len sep) * (n : Int) - len sep < 9223372036854775808) :
    RepeatJoin s sep (n : Int) = some (repeated s sep n) := by
  match n with
  | 0 => simp [RepeatJoin, repeated]
  | 1 => simp [RepeatJoin, repeated]
  | 2 => simp [RepeatJoin, repeated]
  | k + 3 =>
    have h0 : ¬ (((k + 3 : Nat) : Int) ≤ 0) := by omega
    have h1 : ¬ (((k + 3 : Nat) : Int) = 1) := by omega
    have h2 : ¬ (((k + 3 : Nat) : Int) = 2) := by omega
    have ht : (((k + 3 : Nat) : Int) - 1).toNat = k + 2 := by
      have : ((k + 3 : Nat) : Int) - 1 = ((k + 2 : Nat) : Int) := by push_cast; ring
      rw [this, Int.toNat_ofNat]
    have hl : RepeatJoin.loop s sep (k + 2) ⟨s⟩ = ⟨repeated s sep (k + 3)⟩ := by
      have := RepeatJoin_loop_eq s sep (k + 2) 0
      rw [show 0 + 1 + (k + 2) = k + 3 by omega] at this
      exact this
    simp only [RepeatJoin, h0, h1, h2, if_false,
      makeCap_repeat s sep _ (by omega : (1 : Int) ≤ ((k + 3 : Nat) : Int)) (hcap (by omega)),
      Option.bind_eq_bind, Option.some_bind, ht, NewBuffer, Buffer.WriteString, List.nil_append]
    rw [hl]
    rfl

theorem RepeatJoin_nonpos (s sep : Str) (count : Int) (h : count ≤ 0) :
    RepeatJoin s sep count = some [] := by
  simp [RepeatJoin, h]

theorem repeated_succ_succ (s sep : Str) (n : Nat) :
    repeated s sep (n + 2) = s ++ sep ++ repeated s sep (n + 1) := by
  induction n with
  | zero => rfl
  | succ n ih =>
    calc repeated s sep (n + 1 + 2)
        = repeated s sep (n + 2) ++ sep ++ s := rfl
      _ = s ++ sep ++ repeated s sep (n + 1) ++ sep ++ s := by rw [ih]
      _ = s ++ sep ++ (repeated s sep (n + 1) ++ sep ++ s) := by simp only [List.append_assoc]
      _ = s ++ sep ++ repeated s sep (n + 1 + 1) := rfl

theorem repeated_eq_intercalate (s sep : Str) (n : Nat) :
    repeated s sep n = List.intercalate sep (List.replicate n s) := by
  induction n using Nat.strong_induction_on with
  | _ n ih =>
    match n with
    | 0 => rfl
    | 1 => simp [repeated, List.intercalate]
    | k + 2 =>
      rw [repeated_succ_succ, ih (k + 1) (by omega)]
      simp [List.intercalate, List.replicate_succ, List.intersperse]

theorem len_repeated (s sep : Str) (n : Nat) :
    len (repeated s sep (n + 1)) = (len s + len sep) * ((n + 1 : Nat) : Int) - len sep := by
  induction n with
  | zero => simp [repeated]
  | succ n ih =>
    have : repeated s sep (n + 1 + 1) = repeated s sep (n + 1) ++ sep ++ s := rfl
    rw [this, len_append, len_append, ih]
    push_cast
    ring

/-- Claim C10, amended: whenever the buffer capacity
`(len(s)+len(sep))*count - len(sep)` of the general path (`count >= 3`) is
below `2^63`, `RepeatJoin(s, sep, count)` is `count` copies of `s` joined by
`sep`: the empty string when `count <= 0`, `s` when `count = 1`, and
`RepeatJoin(s, sep, count-1) ++ sep ++ s` when `count >= 2`; for `count >= 1`
its length is `(len(s)+len(sep))*count - len(sep)`, which in the general path
is exactly the capacity computed in `int` arithmetic, so the buffer never
grows.  `RepeatJoin("x", "-", 3) = "x-x-x"` and `RepeatJoin("x", "-", 0) = ""`. -/
theorem RepeatJoin_spec (s sep : Str) (count : Int)
    (hcap : 3 ≤ count → (len s + len sep) * count - len sep < 9223372036854775808) :
    RepeatJoin s sep count = some (List.intercalate sep (List.replicate count.toNat s))
    ∧ (count ≤ 0 → RepeatJoin s sep count = some [])
    ∧ (count = 1 → RepeatJoin s sep count = some s)
    ∧ (2 ≤ count → ∃ r, RepeatJoin s sep (count - 1) = some r
        ∧ RepeatJoin s sep count = some (r ++ sep ++ s))
    ∧ (1 ≤ count → ∃ r, RepeatJoin s sep count = some r
        ∧ len r = (len s + len sep) * count - len sep)
    ∧ RepeatJoin [120] [45] 3 = some [120, 45, 120, 45, 120]
    ∧ RepeatJoin [120] [45] 0 = some []
    ∧ (3 ≤ count →
        wrapInt (wrapInt (wrapInt (len s + len sep) * count) - len sep)
          = (len s + len sep) * count - len sep) := by
  have hnat : ∀ n : Nat, (n : Int) = count → RepeatJoin s sep (n : Int) = some (repeated s sep n) := by
    intro n hn
    exact RepeatJoin_nat s sep n (fun h3 => by rw [hn]; exact hcap (by omega))
  refine ⟨?_, RepeatJoin_nonpos s sep count, ?_, ?_, ?_, by decide, by decide, ?_⟩
  rotate_right
  · intro h3
    have h1 := len_nonneg s
    have h2 := len_nonneg sep
    have h0 : 0 ≤ (len s + len sep) * count - len sep := by nlinarith
    exact RepeatJoin_capacity s sep count (by omega) (hcap h3)
  · rcases le_or_lt count 0 with h | h
    · rw [RepeatJoin_nonpos s sep count h, Int.toNat_eq_zero.mpr h]
      rfl
    · obtain ⟨n, hn⟩ := Int.eq_ofNat_of_zero_le (le_of_lt h)
      rw [hn, hnat n hn.symm, Int.toNat_ofNat, repeated_eq_intercalate]
  · intro h1
    have := hnat 1 (by rw [h1]; rfl)
    rw [h1]
    exact this
  · intro h
    obtain ⟨n, hn⟩ := Int.eq_ofNat_of_zero_le (by omega : (0 : Int) ≤ count)
    obtain ⟨k, hk⟩ : ∃ k, n = k + 2 := ⟨n - 2, by omega⟩
    subst hk
    have hprev : RepeatJoin s sep (count - 1) = some (repeated s sep (k + 1)) := by
      have e : count - 1 = ((k + 1 : Nat) : Int) := by omega
      rw [e]
      apply RepeatJoin_nat
      intro h3
      have hc := hcap (by omega)
      have h1 := len_nonneg s
      have h2 := len_nonneg sep
      have hle : (len s + len sep) * ((k + 1 : Nat) : Int) ≤ (len s + len sep) * count := by
        apply Int.mul_le_mul_of_nonneg_left (by omega) (by omega)
      omega
    refine ⟨repeated s sep (k + 1), hprev, ?_⟩
    rw [hn]
    exact hnat (k + 2) hn.symm
  · intro h
    obtain ⟨n, hn⟩ := Int.eq_ofNat_of_zero_le (by omega : (0 : Int) ≤ count)
    obtain ⟨k, hk⟩ : ∃ k, n = k + 1 := ⟨n - 1, by omega⟩
    subst hk
    refine ⟨repeated s sep (k + 1), ?_, ?_⟩
    · rw [hn]
      exact hnat (k + 1) hn.symm
    · rw [hn]
      exact len_repeated s sep k

/-- Witness for `RepeatJoin_spec`: `s = "ab"`, `sep = ","` and the counts `-3`,
`1` and `4`. -/
theorem RepeatJoin_spec_witness :
    RepeatJoin [97, 98] [44] (-3) = some []
    ∧ RepeatJoin [97, 98] [44] 1 = some [97, 98]
    ∧ (∃ r, RepeatJoin [97, 98] [44] (4 - 1) = some r
        ∧ RepeatJoin [97, 98] [44] 4 = some (r ++ [44] ++ [97, 98]))
    ∧ (∃ r, RepeatJoin [97, 98] [44] 4 = some r
        ∧ len r = (len [97, 98] + len [44]) * 4 - len [44]) :=
  ⟨(RepeatJoin_spec [97, 98] [44] (-3) (by decide)).2.1 (by decide),
   (RepeatJoin_spec [97, 98] [44] 1 (by decide)).2.2.1 rfl,
   (RepeatJoin_spec [97, 98] [44] 4 (by decide)).2.2.2.1 (by decide),
   (RepeatJoin_spec [97, 98] [44] 4 (by decide)).2.2.2.2.1 (by decide)⟩

/-- Evaluation of `RepeatJoin("ab", "", 1<<62)`: the capacity `2 * 2^62` wraps
to `-2^63` and `make` panics. -/
theorem RepeatJoin_two_pow_62 : RepeatJoin [97, 98] [] 4611686018427387904 = none := by
  decide

/-- Claim C10 as stated fails: `RepeatJoin("ab", "", 1<<62)` panics in `make`,
so it is not `count` copies of `s` joined by `sep` for every integer `count`. -/
theorem RepeatJoin_capacity_wraps :
    RepeatJoin [97, 98] [] 4611686018427387904 = none
    ∧ ¬ (∀ (s sep : Str) (count : Int),
          RepeatJoin s sep count
            = some (List.intercalate sep (List.replicate count.toNat s))) := by
  refine ⟨RepeatJoin_two_pow_62, fun h => ?_⟩
  have := h [97, 98] [] 4611686018427387904
  rw [RepeatJoin_two_pow_62] at this
  cases this

/-! ## `strings.Index` and `SplitAtN` -/

theorem OccursAt_zero_iff (s sep : Str) : OccursAt s sep 0 ↔ s.take sep.length = sep := by
  constructor
  · intro h; simpa using h.2
  · intro h
    refine ⟨?_, by simpa using h⟩
    have := congrArg List.length h
    simp only [List.length_take] at this
    omega

theorem OccursAt_cons_succ (c : Byte) (s sep : Str) (p : Nat) :
    OccursAt (c :: s) sep (p + 1) ↔ OccursAt s sep p := by
  simp only [OccursAt, List.length_cons, List.drop_succ_cons]
  constructor
  · rintro ⟨h1, h2⟩; exact ⟨by omega, h2⟩
  · rintro ⟨h1, h2⟩; exact ⟨by omega, h2⟩

theorem OccursAt_drop (s sep : Str) (k p : Nat) (hk : k ≤ s.length) :
    OccursAt (s.drop k) sep p ↔ OccursAt s sep (k + p) := by
  simp only [OccursAt, List.length_drop, List.drop_drop]
  constructor
  · rintro ⟨h1, h2⟩; exact ⟨by omega, h2⟩
  · rintro ⟨h1, h2⟩; exact ⟨by omega, h2⟩

theorem Index_go_spec (sep t : Str) (i : Nat) :
    (Index.go sep t i = -1 ∧ ∀ p, ¬ OccursAt t sep p)
      ∨ ∃ p : Nat, Index.go sep t i = ((i + p : Nat) : Int) ∧ FirstFrom t sep 0 p := by
  induction t generalizing i with
  | nil =>
    by_cases hs : sep = []
    · right
      refine ⟨0, by simp [Index.go, hs], Nat.le_refl 0, ?_, fun q hq => absurd hq (Nat.not_lt_zero q)⟩
      simp [OccursAt, hs]
    · left
      refine ⟨by simp [Index.go, hs], fun p hp => hs ?_⟩
      have := hp.1
      simp only [List.length_nil] at this
      exact List.length_eq_zero.mp (by omega)
  | cons c cs ih =>
    by_cases hm : (c :: cs).take sep.length = sep
    · right
      refine ⟨0, by simp [Index.go, hm], Nat.le_refl 0, (OccursAt_zero_iff _ _).mpr hm,
        fun q hq => absurd hq (Nat.not_lt_zero q)⟩
    · have h0 : ¬ OccursAt (c :: cs) sep 0 := fun h => hm ((OccursAt_zero_iff _ _).mp h)
      rcases ih (i + 1) with ⟨h1, h2⟩ | ⟨p, h1, h2⟩
      · left
        refine ⟨by simp only [Index.go, hm, if_false, h1], fun p hp => ?_⟩
        cases p with
        | zero => exact h0 hp
        | succ p => exact h2 p ((OccursAt_cons_succ c cs sep p).mp hp)
      · right
        refine ⟨p + 1, ?_, Nat.zero_le _, (OccursAt_cons_succ c cs sep p).mpr h2.2.1, ?_⟩
        · simp only [Index.go, hm, if_false, h1]
          congr 1
          omega
        · intro q hq _ hocc
          cases q with
          | zero => exact h0 hocc
          | succ q =>
            exact h2.2.2 q (by omega) (Nat.zero_le _) ((OccursAt_cons_succ c cs sep q).mp hocc)

theorem FirstFrom_drop (s sep : Str) (k p : Nat) (hk : k ≤ s.length) :
    FirstFrom (s.drop k) sep 0 p ↔ FirstFrom s sep k (k + p) := by
  constructor
  · rintro ⟨_, h2, h3⟩
    refine ⟨by omega, (OccursAt_drop s sep k p hk).mp h2, fun q hq hkq hocc => ?_⟩
    have e : q = k + (q - k) := by omega
    rw [e] at hocc
    exact h3 (q - k) (by omega) (Nat.zero_le _) ((OccursAt_drop s sep k _ hk).mpr hocc)
  · rintro ⟨_, h2, h3⟩
    refine ⟨Nat.zero_le _, (OccursAt_drop s sep k p hk).mpr h2, fun q hq _ hocc => ?_⟩
    exact h3 (k + q) (by omega) (by omega) ((OccursAt_drop s sep k q hk).mp hocc)

/-- `strings.Index` on the part of `s` after `k`, in absolute indices. -/
theorem Index_drop_spec (s sep : Str) (k : Nat) (hk : k ≤ s.length) :
    (Index (s.drop k) sep = -1 ∧ ∀ p, ¬ FirstFrom s sep k p)
      ∨ ∃ p : Nat, Index (s.drop k) sep = ((p - k : Nat) : Int) ∧ FirstFrom s sep k p := by
  rcases Index_go_spec sep (s.drop k) 0 with ⟨h1, h2⟩ | ⟨p, h1, h2⟩
  · left
    refine ⟨h1, fun p hp => ?_⟩
    have e : p = k + (p - k) := by have := hp.1; omega
    rw [e] at hp
    exact h2 (p - k) ((OccursAt_drop s sep k _ hk).mpr hp.2.1)
  · right
    refine ⟨k + p, ?_, (FirstFrom_drop s sep k p hk).mp h2⟩
    rw [Index, h1]
    congr 1
    omega

theorem FirstFrom_unique (s sep : Str) (start p q : Nat)
    (hp : FirstFrom s sep start p) (hq : FirstFrom s sep start q) : p = q := by
  rcases Nat.lt_trichotomy p q with h | h | h
  · exact absurd hp.2.1 (hq.2.2 p h hp.1)
  · exact h
  · exact absurd hq.2.1 (hp.2.2 q h hq.1)

theorem NthFrom_unique (s sep : Str) (n start p q : Nat)
    (hp : NthFrom s sep n start p) (hq : NthFrom s sep n start q) : p = q := by
  induction n using Nat.strong_induction_on generalizing start with
  | _ n ih =>
    match n, hp, hq with
    | 1, hp, hq => exact FirstFrom_unique s sep start p q hp hq
    | k + 2, ⟨p1, _, hp1, hp2⟩, ⟨q1, _, hq1, hq2⟩ =>
      have e := FirstFrom_unique s sep start p1 q1 hp1 hq1
      subst e
      exact ih (k + 1) (by omega) _ hp2 hq2

theorem NthFrom_occurs (s sep : Str) (n start p : Nat) (h : NthFrom s sep n start p) :
    OccursAt s sep p ∧ start ≤ p := by
  induction n using Nat.strong_induction_on generalizing start with
  | _ n ih =>
    match n, h with
    | 1, h => exact ⟨h.2.1, h.1⟩
    | k + 2, ⟨p1, _, hp1, hp2⟩ =>
      have := ih (k + 1) (by omega) _ hp2
      exact ⟨this.1, by have := hp1.1; omega⟩


theorem SplitAtN_loop_step (sep str : Str) (k : Nat) (index idx0 : Int) :
    SplitAtN.loop sep (k + 1) str index idx0
      = if Index str sep = -1 then some (index, Index str sep)
        else (sliceFrom str (Index str sep + len sep)).bind
          (fun t => SplitAtN.loop sep k t (index + Index str sep) (Index str sep)) := rfl

theorem not_NthFrom_of_no_first (s sep : Str) (k start : Nat)
    (h : ∀ p, ¬ FirstFrom s sep start p) (p : Nat) : ¬ NthFrom s sep (k + 1) start p := by
  cases k with
  | zero => exact h p
  | succ k => rintro ⟨p1, _, h1, _⟩; exact h p1 h1

theorem SplitAtN_loop_spec (orig sep : Str) (k start : Nat) (hstart : start ≤ orig.length)
    (index idx0 : Int) :
    (∃ index1 : Int, SplitAtN.loop sep (k + 1) (orig.drop start) index idx0 = some (index1, -1)
        ∧ ∀ p, ¬ NthFrom orig sep (k + 1) start p)
    ∨ (∃ (p : Nat) (idx : Int), NthFrom orig sep (k + 1) start p ∧ idx ≠ -1
        ∧ SplitAtN.loop sep (k + 1) (orig.drop start) index idx0
          = some (index + (p : Int) - (start : Int) - (k : Int) * len sep, idx)) := by
  induction k generalizing start index idx0 with
  | zero =>
    rcases Index_drop_spec orig sep start hstart with ⟨h1, h2⟩ | ⟨p1, h1, h2⟩
    · left
      refine ⟨index, by rw [SplitAtN_loop_step, h1]; rfl,
        not_NthFrom_of_no_first orig sep 0 start h2⟩
    · right
      have hle : start ≤ p1 := h2.1
      have hocc := h2.2.1.1
      have hne : ((p1 - start : Nat) : Int) ≠ -1 := by omega
      refine ⟨p1, ((p1 - start : Nat) : Int), h2, hne, ?_⟩
      rw [SplitAtN_loop_step, h1, if_neg hne]
      have e : ((p1 - start : Nat) : Int) + len sep = ((p1 - start + sep.length : Nat) : Int) := by
        simp [len]
      rw [e, sliceFrom_nat _ _ (by simp only [List.length_drop]; omega)]
      simp only [Option.some_bind, SplitAtN.loop]
      congr 2
      push_cast [hle]
      ring
  | succ k ih =>
    rcases Index_drop_spec orig sep start hstart with ⟨h1, h2⟩ | ⟨p1, h1, h2⟩
    · left
      refine ⟨index, by rw [SplitAtN_loop_step, h1]; rfl,
        not_NthFrom_of_no_first orig sep _ start h2⟩
    · have hle : start ≤ p1 := h2.1
      have hocc := h2.2.1.1
      have hne : ((p1 - start : Nat) : Int) ≠ -1 := by omega
      have e : ((p1 - start : Nat) : Int) + len sep = ((p1 - start + sep.length : Nat) : Int) := by
        simp [len]
      have hstep : SplitAtN.loop sep (k + 1 + 1) (orig.drop start) index idx0
          = SplitAtN.loop sep (k + 1) (orig.drop (p1 + sep.length))
              (index + ((p1 - start : Nat) : Int)) ((p1 - start : Nat) : Int) := by
        rw [SplitAtN_loop_step, h1, if_neg hne, e,
          sliceFrom_nat _ _ (by simp only [List.length_drop]; omega)]
        simp only [Option.some_bind, List.drop_drop]
        congr 2
        omega
      have hno : (∀ p, ¬ NthFrom orig sep (k + 1) (p1 + sep.length) p) →
          ∀ p, ¬ NthFrom orig sep (k + 1 + 1) start p := by
        rintro hn p ⟨q1, _, hq1, hq2⟩
        have := FirstFrom_unique orig sep start p1 q1 h2 hq1
        subst this
        exact hn p hq2
      rcases ih (p1 + sep.length) hocc (index + ((p1 - start : Nat) : Int))
          ((p1 - start : Nat) : Int) with ⟨i1, h3, h4⟩ | ⟨p, idx, h3, h4, h5⟩
      · left
        exact ⟨i1, by rw [hstep, h3], hno h4⟩
      · right
        have hp := (NthFrom_occurs orig sep _ _ p h3).2
        refine ⟨p, idx, ⟨p1, by omega, h2, h3⟩, h4, ?_⟩
        rw [hstep, h5]
        congr 2
        simp only [len]
        push_cast [hle]
        ring


theorem SplitAtN_cases (str sep : Str) (k : Nat) :
    (SplitAtN str sep ((k + 1 : Nat) : Int) = some (-1) ∧ ∀ p, ¬ NthFrom str sep (k + 1) 0 p)
    ∨ ∃ p : Nat, SplitAtN str sep ((k + 1 : Nat) : Int) = some (p : Int)
        ∧ NthFrom str sep (k + 1) 0 p := by
  have hs := SplitAtN_loop_spec str sep k 0 (Nat.zero_le _) 0 (-1)
  rw [List.drop_zero] at hs
  rcases hs with ⟨i1, h1, h2⟩ | ⟨p, idx, h1, h2, h3⟩
  · left
    refine ⟨?_, h2⟩
    simp only [SplitAtN, Int.toNat_ofNat, h1, Option.bind_eq_bind, Option.some_bind]
    rfl
  · right
    refine ⟨p, ?_, h1⟩
    simp only [SplitAtN, Int.toNat_ofNat, h3, Option.bind_eq_bind, Option.some_bind, if_neg h2,
      Option.pure_def]
    congr 1
    push_cast
    ring

theorem slice_of_OccursAt (s sep : Str) (p : Nat) (h : OccursAt s sep p) :
    slice s (p : Int) ((p : Int) + len sep) = some sep := by
  have e : (p : Int) + len sep = ((p + sep.length : Nat) : Int) := by simp [len]
  have hc : 0 ≤ (p : Int) ∧ (p : Int) ≤ ((p + sep.length : Nat) : Int)
      ∧ ((p + sep.length : Nat) : Int) ≤ len s := by
    have := h.1
    simp only [len]
    omega
  rw [e]
  simp only [slice, if_pos hc, Int.toNat_ofNat, List.drop_take, Nat.add_sub_cancel_left, h.2]

/-- Claim C6: for `n >= 1`, `SplitAtN(str, sep, n)` returns the absolute index
in `str` at which the `n`-th occurrence of `sep` begins, occurrences being found
left to right with each search resuming right after the end of the previous
occurrence; it returns `-1` exactly when there is no `n`-th occurrence; a
result `i` other than `-1` satisfies `str[i : i+len(sep)] = sep`.
`SplitAtN("a.b.c.d", ".", 2) = 3` and `SplitAtN("a.b", ".", 5) = -1`. -/
theorem SplitAtN_spec (str sep : Str) (n : Int) (hn : 1 ≤ n) :
    (SplitAtN str sep n = some (-1) ∨ ∃ p : Nat, SplitAtN str sep n = some (p : Int))
    ∧ (∀ p : Nat, SplitAtN str sep n = some (p : Int) ↔ NthFrom str sep n.toNat 0 p)
    ∧ (SplitAtN str sep n = some (-1) ↔ ¬ ∃ p, NthFrom str sep n.toNat 0 p)
    ∧ (∀ i : Int, SplitAtN str sep n = some i → i ≠ -1 → slice str i (i + len sep) = some sep)
    ∧ SplitAtN [97, 46, 98, 46, 99, 46, 100] [46] 2 = some 3
    ∧ SplitAtN [97, 46, 98] [46] 5 = some (-1) := by
  obtain ⟨m, rfl⟩ := Int.eq_ofNat_of_zero_le (by omega : (0 : Int) ≤ n)
  obtain ⟨k, rfl⟩ : ∃ k, m = k + 1 := ⟨m - 1, by omega⟩
  rw [Int.toNat_ofNat]
  refine ⟨?_, ?_, ?_, ?_, by decide, by decide⟩
  · rcases SplitAtN_cases str sep k with ⟨h1, _⟩ | ⟨p, h1, _⟩
    · exact Or.inl h1
    · exact Or.inr ⟨p, h1⟩
  · intro p
    rcases SplitAtN_cases str sep k with ⟨h1, h2⟩ | ⟨q, h1, h2⟩
    · rw [h1]
      constructor
      · intro h
        have := Option.some.inj h
        omega
      · intro h
        exact absurd h (h2 p)
    · rw [h1]
      constructor
      · intro h
        have : q = p := by have := Option.some.inj h; omega
        rw [← this]
        exact h2
      · intro h
        rw [NthFrom_unique str sep _ 0 q p h2 h]
  · rcases SplitAtN_cases str sep k with ⟨h1, h2⟩ | ⟨q, h1, h2⟩
    · constructor
      · rintro _ ⟨p, hp⟩
        exact h2 p hp
      · intro _
        exact h1
    · rw [h1]
      constructor
      · intro h
        have := Option.some.inj h
        omega
      · intro h
        exact absurd ⟨q, h2⟩ h
  · intro i hi hne
    rcases SplitAtN_cases str sep k with ⟨h1, _⟩ | ⟨q, h1, h2⟩
    · rw [h1] at hi
      exact absurd (Option.some.inj hi).symm hne
    · rw [h1] at hi
      rw [← Option.some.inj hi]
      exact slice_of_OccursAt str sep q (NthFrom_occurs str sep _ 0 q h2).1

/-- Witness for `SplitAtN_spec`: `str = "a, b, c"` and `sep = ", "` with
`n = 2` and `n = 3`. -/
theorem SplitAtN_spec_witness :
    SplitAtN [97, 44, 32, 98, 44, 32, 99] [44, 32] 2 = some (4 : Nat)
    ∧ (SplitAtN [97, 44, 32, 98, 44, 32, 99] [44, 32] 3 = some (-1)
        ↔ ¬ ∃ p, NthFrom [97, 44, 32, 98, 44, 32, 99] [44, 32] (3 : Int).toNat 0 p) :=
  ⟨((SplitAtN_spec [97, 44, 32, 98, 44, 32, 99] [44, 32] 2 (by decide)).2.1 4).mpr
      (by decide),
   (SplitAtN_spec [97, 44, 32, 98, 44, 32, 99] [44, 32] 3 (by decide)).2.2.1⟩

/-! ## `strings.LastIndex` and `SplitAtLastN` -/

theorem LastIndex_go_spec (sep t : Str) (i : Nat) (acc : Int) :
    (LastIndex.go sep t i acc = acc ∧ ∀ p, ¬ OccursAt t sep p)
      ∨ ∃ p : Nat, LastIndex.go sep t i acc = ((i + p : Nat) : Int) ∧ OccursAt t sep p
          ∧ ∀ q, p < q → ¬ OccursAt t sep q := by
  induction t generalizing i acc with
  | nil =>
    by_cases hs : sep = []
    · right
      refine ⟨0, by simp [LastIndex.go, hs], by simp [OccursAt, hs], fun q hq hocc => ?_⟩
      have := hocc.1
      simp only [List.length_nil] at this
      omega
    · left
      refine ⟨by simp [LastIndex.go, hs], fun p hp => hs ?_⟩
      have := hp.1
      simp only [List.length_nil] at this
      exact List.length_eq_zero.mp (by omega)
  | cons c cs ih =>
    have hstep : LastIndex.go sep (c :: cs) i acc = LastIndex.go sep cs (i + 1)
        (if (c :: cs).take sep.length = sep then (i : Int) else acc) := rfl
    rcases ih (i + 1) (if (c :: cs).take sep.length = sep then (i : Int) else acc)
      with ⟨h1, h2⟩ | ⟨p, h1, h2, h3⟩
    · by_cases hm : (c :: cs).take sep.length = sep
      · right
        refine ⟨0, by rw [hstep, h1, if_pos hm]; rfl, (OccursAt_zero_iff _ _).mpr hm,
          fun q hq hocc => ?_⟩
        obtain ⟨q', rfl⟩ : ∃ q', q = q' + 1 := ⟨q - 1, by omega⟩
        exact h2 q' ((OccursAt_cons_succ c cs sep q').mp hocc)
      · left
        refine ⟨by rw [hstep, h1, if_neg hm], fun p hp => ?_⟩
        cases p with
        | zero => exact hm ((OccursAt_zero_iff _ _).mp hp)
        | succ p => exact h2 p ((OccursAt_cons_succ c cs sep p).mp hp)
    · right
      refine ⟨p + 1, ?_, (OccursAt_cons_succ c cs sep p).mpr h2, fun q hq hocc => ?_⟩
      · rw [hstep, h1]
        congr 1
        omega
      · obtain ⟨q', rfl⟩ : ∃ q', q = q' + 1 := ⟨q - 1, by omega⟩
        exact h3 q' (by omega) ((OccursAt_cons_succ c cs sep q').mp hocc)

theorem OccursAt_take (s sep : Str) (stop p : Nat) (hstop : stop ≤ s.length) :
    OccursAt (s.take stop) sep p ↔ OccursAt s sep p ∧ p + sep.length ≤ stop := by
  simp only [OccursAt, List.length_take]
  constructor
  · rintro ⟨h1, h2⟩
    have hle : p + sep.length ≤ stop := by omega
    refine ⟨⟨by omega, ?_⟩, hle⟩
    rw [List.drop_take, List.take_take, Nat.min_eq_left (by omega)] at h2
    exact h2
  · rintro ⟨⟨h1, h2⟩, h3⟩
    refine ⟨by omega, ?_⟩
    rw [List.drop_take, List.take_take, Nat.min_eq_left (by omega)]
    exact h2

/-- `strings.LastIndex` on the part of `s` before `stop`. -/
theorem LastIndex_take_spec (s sep : Str) (stop : Nat) (hstop : stop ≤ s.length) :
    (LastIndex (s.take stop) sep = -1 ∧ ∀ p, ¬ LastBefore s sep stop p)
      ∨ ∃ p : Nat, LastIndex (s.take stop) sep = (p : Int) ∧ LastBefore s sep stop p := by
  rcases LastIndex_go_spec sep (s.take stop) 0 (-1) with ⟨h1, h2⟩ | ⟨p, h1, h2, h3⟩
  · left
    refine ⟨h1, fun p hp => h2 p ((OccursAt_take s sep stop p hstop).mpr ⟨hp.2.1, hp.1⟩)⟩
  · right
    have h2' := (OccursAt_take s sep stop p hstop).mp h2
    refine ⟨p, by rw [LastIndex, h1]; congr 1; omega, h2'.2, h2'.1, fun q _ hq hle hocc => ?_⟩
    exact h3 q hq ((OccursAt_take s sep stop q hstop).mpr ⟨hocc, hle⟩)

theorem LastBefore_unique (s sep : Str) (stop p q : Nat)
    (hp : LastBefore s sep stop p) (hq : LastBefore s sep stop q) : p = q := by
  rcases Nat.lt_trichotomy p q with h | h | h
  · exact absurd hq.2.1 (hp.2.2 q (by have := hq.1; omega) h hq.1)
  · exact h
  · exact absurd hp.2.1 (hq.2.2 p (by have := hp.1; omega) h hp.1)

theorem NthLastBefore_unique (s sep : Str) (n stop p q : Nat)
    (hp : NthLastBefore s sep n stop p) (hq : NthLastBefore s sep n stop q) : p = q := by
  induction n using Nat.strong_induction_on generalizing stop with
  | _ n ih =>
    match n, hp, hq with
    | 1, hp, hq => exact LastBefore_unique s sep stop p q hp hq
    | k + 2, ⟨p1, _, hp1, hp2⟩, ⟨q1, _, hq1, hq2⟩ =>
      have e := LastBefore_unique s sep stop p1 q1 hp1 hq1
      subst e
      exact ih (k + 1) (by omega) _ hp2 hq2

theorem NthLastBefore_occurs (s sep : Str) (n stop p : Nat)
    (h : NthLastBefore s sep n stop p) : OccursAt s sep p := by
  induction n using Nat.strong_induction_on generalizing stop with
  | _ n ih =>
    match n, h with
    | 1, h => exact h.2.1
    | k + 2, ⟨p1, _, _, hp2⟩ => exact ih (k + 1) (by omega) _ hp2

theorem SplitAtLastN_loop_step (sep str : Str) (k : Nat) (index0 : Int) :
    SplitAtLastN.loop sep (k + 1) str index0
      = if LastIndex str sep = -1 then some (LastIndex str sep)
        else (sliceTo str (LastIndex str sep)).bind
          (fun t => SplitAtLastN.loop sep k t (LastIndex str sep)) := rfl

theorem SplitAtLastN_loop_spec (orig sep : Str) (k stop : Nat) (hstop : stop ≤ orig.length)
    (index0 : Int) :
    (SplitAtLastN.loop sep (k + 1) (orig.take stop) index0 = some (-1)
        ∧ ∀ p, ¬ NthLastBefore orig sep (k + 1) stop p)
    ∨ ∃ p : Nat, SplitAtLastN.loop sep (k + 1) (orig.take stop) index0 = some (p : Int)
        ∧ NthLastBefore orig sep (k + 1) stop p := by
  induction k generalizing stop index0 with
  | zero =>
    rcases LastIndex_take_spec orig sep stop hstop with ⟨h1, h2⟩ | ⟨p1, h1, h2⟩
    · left
      exact ⟨by rw [SplitAtLastN_loop_step, h1]; rfl, h2⟩
    · right
      have hne : (p1 : Int) ≠ -1 := by omega
      have hp1 : p1 ≤ stop := by have := h2.1; omega
      refine ⟨p1, ?_, h2⟩
      rw [SplitAtLastN_loop_step, h1, if_neg hne,
        sliceTo_nat _ _ (by simp only [List.length_take]; omega)]
      rfl
  | succ k ih =>
    rcases LastIndex_take_spec orig sep stop hstop with ⟨h1, h2⟩ | ⟨p1, h1, h2⟩
    · left
      refine ⟨by rw [SplitAtLastN_loop_step, h1]; rfl, ?_⟩
      rintro p ⟨q1, _, hq1, _⟩
      exact h2 q1 hq1
    · have hne : (p1 : Int) ≠ -1 := by omega
      have hp1 : p1 ≤ stop := by have := h2.1; omega
      have hstep : SplitAtLastN.loop sep (k + 1 + 1) (orig.take stop) index0
          = SplitAtLastN.loop sep (k + 1) (orig.take p1) (p1 : Int) := by
        rw [SplitAtLastN_loop_step, h1, if_neg hne,
          sliceTo_nat _ _ (by simp only [List.length_take]; omega)]
        simp only [Option.some_bind, List.take_take, Nat.min_eq_left hp1]
      rcases ih p1 (by omega) (p1 : Int) with ⟨h3, h4⟩ | ⟨p, h3, h4⟩
      · left
        refine ⟨by rw [hstep, h3], ?_⟩
        rintro p ⟨q1, _, hq1, hq2⟩
        have := LastBefore_unique orig sep stop p1 q1 h2 hq1
        subst this
        exact h4 p hq2
      · right
        exact ⟨p, by rw [hstep, h3], p1, hp1, h2, h4⟩

theorem SplitAtLastN_cases (str sep : Str) (k : Nat) :
    (SplitAtLastN str sep ((k + 1 : Nat) : Int) = some (-1)
        ∧ ∀ p, ¬ NthLastBefore str sep (k + 1) str.length p)
    ∨ ∃ p : Nat, SplitAtLastN str sep ((k + 1 : Nat) : Int) = some (p : Int)
        ∧ NthLastBefore str sep (k + 1) str.length p := by
  have hs := SplitAtLastN_loop_spec str sep k str.length (Nat.le_refl _) 0
  rw [List.take_length] at hs
  simpa only [SplitAtLastN, Int.toNat_ofNat] using hs

/-- Claim C7: for `n >= 1`, `SplitAtLastN(str, sep, n)` returns the index in
`str` of the `n`-th-from-last occurrence of `sep`, occurrences being found right
to left with each search restricted to the part of `str` before the start of
the previously found occurrence; it returns `-1` exactly when there is no such
occurrence; a result `i` other than `-1` satisfies
`str[i : i+len(sep)] = sep`. -/
theorem SplitAtLastN_spec (str sep : Str) (n : Int) (hn : 1 ≤ n) :
    (SplitAtLastN str sep n = some (-1) ∨ ∃ p : Nat, SplitAtLastN str sep n = some (p : Int))
    ∧ (∀ p : Nat, SplitAtLastN str sep n = some (p : Int)
        ↔ NthLastBefore str sep n.toNat str.length p)
    ∧ (SplitAtLastN str sep n = some (-1) ↔ ¬ ∃ p, NthLastBefore str sep n.toNat str.length p)
    ∧ (∀ i : Int, SplitAtLastN str sep n = some i → i ≠ -1 →
        slice str i (i + len sep) = some sep) := by
  obtain ⟨m, rfl⟩ := Int.eq_ofNat_of_zero_le (by omega : (0 : Int) ≤ n)
  obtain ⟨k, rfl⟩ : ∃ k, m = k + 1 := ⟨m - 1, by omega⟩
  rw [Int.toNat_ofNat]
  refine ⟨?_, ?_, ?_, ?_⟩
  · rcases SplitAtLastN_cases str sep k with ⟨h1, _⟩ | ⟨p, h1, _⟩
    · exact Or.inl h1
    · exact Or.inr ⟨p, h1⟩
  · intro p
    rcases SplitAtLastN_cases str sep k with ⟨h1, h2⟩ | ⟨q, h1, h2⟩
    · rw [h1]
      constructor
      · intro h
        have := Option.some.inj h
        omega
      · intro h
        exact absurd h (h2 p)
    · rw [h1]
      constructor
      · intro h
        have : q = p := by have := Option.some.inj h; omega
        rw [← this]
        exact h2
      · intro h
        rw [NthLastBefore_unique str sep _ _ q p h2 h]
  · rcases SplitAtLastN_cases str sep k with ⟨h1, h2⟩ | ⟨q, h1, h2⟩
    · constructor
      · rintro _ ⟨p, hp⟩
        exact h2 p hp
      · intro _
        exact h1
    · rw [h1]
      constructor
      · intro h
        have := Option.some.inj h
        omega
      · intro h
        exact absurd ⟨q, h2⟩ h
  · intro i hi hne
    rcases SplitAtLastN_cases str sep k with ⟨h1, _⟩ | ⟨q, h1, h2⟩
    · rw [h1] at hi
      exact absurd (Option.some.inj hi).symm hne
    · rw [h1] at hi
      rw [← Option.some.inj hi]
      exact slice_of_OccursAt str sep q (NthLastBefore_occurs str sep _ _ q h2)

/-- Witness for `SplitAtLastN_spec`: `str = "a, b, c"` and `sep = ", "` with
`n = 2` and `n = 3`. -/
theorem SplitAtLastN_spec_witness :
    SplitAtLastN [97, 44, 32, 98, 44, 32, 99] [44, 32] 2 = some (1 : Nat)
    ∧ (SplitAtLastN [97, 44, 32, 98, 44, 32, 99] [44, 32] 3 = some (-1)
        ↔ ¬ ∃ p, NthLastBefore [97, 44, 32, 98, 44, 32, 99] [44, 32] (3 : Int).toNat
            (List.length [97, 44, 32, 98, 44, 32, 99]) p) :=
  ⟨((SplitAtLastN_spec [97, 44, 32, 98, 44, 32, 99] [44, 32] 2 (by decide)).2.1 1).mpr
      (by decide),
   (SplitAtLastN_spec [97, 44, 32, 98, 44, 32, 99] [44, 32] 3 (by decide)).2.2.1⟩

/-! ## `LastIndexByte` and `Compare` -/

theorem byteAt_nat (s : Str) (k : Nat) : byteAt s (k : Int) = s.get? k := by
  by_cases h : k < s.length
  · simp [byteAt, len, h]
  · simp only [byteAt, len]
    rw [if_neg (by omega), List.get?_eq_none.mpr (by omega)]

theorem LastIndexByte_loop_spec (s : Str) (b : Byte) (k : Nat) (hk : k ≤ s.length) :
    (LastIndexByte.loop s b k ((k : Int) - 1) = some (-1) ∧ ∀ j, j < k → s.get? j ≠ some b)
    ∨ ∃ i : Nat, i < k ∧ LastIndexByte.loop s b k ((k : Int) - 1) = some (i : Int)
        ∧ s.get? i = some b ∧ ∀ j, i < j → j < k → s.get? j ≠ some b := by
  induction k with
  | zero => left; exact ⟨rfl, fun j hj => absurd hj (Nat.not_lt_zero j)⟩
  | succ k ih =>
    have e : ((k + 1 : Nat) : Int) - 1 = (k : Int) := by push_cast; ring
    have hlt : k < s.length := by omega
    have hget : s.get? k = some s[k] := by
      rw [List.get?_eq_getElem?, List.getElem?_eq_getElem hlt]
    rw [e]
    by_cases hc : s[k] = b
    · right
      refine ⟨k, by omega, ?_, by rw [hget, hc], fun j h1 h2 => by omega⟩
      simp only [LastIndexByte.loop]
      rw [if_pos (by omega), byteAt_nat, hget]
      simp [hc]
    · have hstep : LastIndexByte.loop s b (k + 1) (k : Int)
          = LastIndexByte.loop s b k ((k : Int) - 1) := by
        simp only [LastIndexByte.loop]
        rw [if_pos (by omega), byteAt_nat, hget]
        simp [hc]
      have hk' : s.get? k ≠ some b := by
        rw [hget]; intro h; exact hc (Option.some.inj h)
      rcases ih (by omega) with ⟨h1, h2⟩ | ⟨i, h1, h2, h3, h4⟩
      · left
        refine ⟨by rw [hstep, h1], fun j hj => ?_⟩
        rcases Nat.lt_succ_iff_lt_or_eq.mp hj with h | h
        · exact h2 j h
        · rw [h]; exact hk'
      · right
        refine ⟨i, by omega, by rw [hstep, h2], h3, fun j hj1 hj2 => ?_⟩
        rcases Nat.lt_succ_iff_lt_or_eq.mp hj2 with h | h
        · exact h4 j hj1 h
        · rw [h]; exact hk'

theorem LastIndexByte_cases (s : Str) (b : Byte) :
    (LastIndexByte s b = some (-1) ∧ b ∉ s)
    ∨ ∃ i : Nat, i < s.length ∧ LastIndexByte s b = some (i : Int)
        ∧ s.get? i = some b ∧ ∀ j, i < j → s.get? j ≠ some b := by
  rcases LastIndexByte_loop_spec s b s.length (Nat.le_refl _) with ⟨h1, h2⟩ | ⟨i, h1, h2, h3, h4⟩
  · left
    refine ⟨h1, fun hm => ?_⟩
    obtain ⟨j, hj, e⟩ := List.getElem_of_mem hm
    exact h2 j hj (by rw [List.get?_eq_getElem?, List.getElem?_eq_getElem hj, e])
  · right
    refine ⟨i, h1, h2, h3, fun j hj hjb => ?_⟩
    by_cases hl : j < s.length
    · exact h4 j hj hl hjb
    · rw [List.get?_eq_none.mpr (by omega)] at hjb
      cases hjb

/-- Claim C16: `LastIndexByte(s, b)` returns `-1` if and only if `b` does not
occur in `s`; otherwise it returns the index `i` with `0 <= i < len(s)`,
`s[i] = b` and `s[j] != b` for every `j` with `i < j < len(s)`. -/
theorem LastIndexByte_spec (s : Str) (b : Byte) :
    (∃ r : Int, LastIndexByte s b = some r)
    ∧ (LastIndexByte s b = some (-1) ↔ b ∉ s)
    ∧ (∀ i : Int, LastIndexByte s b = some i → i ≠ -1 →
        0 ≤ i ∧ i < len s ∧ byteAt s i = some b
          ∧ ∀ j : Int, i < j → j < len s → byteAt s j ≠ some b) := by
  rcases LastIndexByte_cases s b with ⟨h1, h2⟩ | ⟨i, h1, h2, h3, h4⟩
  · refine ⟨⟨-1, h1⟩, ⟨fun _ => h2, fun _ => h1⟩, fun r hr hne => ?_⟩
    rw [h1] at hr
    exact absurd (Option.some.inj hr).symm hne
  · refine ⟨⟨(i : Int), h2⟩, ⟨fun h => ?_, fun h => ?_⟩, fun r hr _ => ?_⟩
    · rw [h2] at h
      have := Option.some.inj h
      omega
    · exact absurd (List.get?_mem h3) h
    · rw [h2] at hr
      have hri : (i : Int) = r := Option.some.inj hr
      subst hri
      refine ⟨by omega, by simp only [len]; omega, by rw [byteAt_nat, h3], fun j hj1 hj2 => ?_⟩
      obtain ⟨m, rfl⟩ := Int.eq_ofNat_of_zero_le (by omega : (0 : Int) ≤ j)
      rw [byteAt_nat]
      exact h4 m (by omega)

/-- Witness for `LastIndexByte_spec`: the last `a` of `"abac"` is at index 2. -/
theorem LastIndexByte_spec_witness :
    0 ≤ (2 : Int) ∧ (2 : Int) < len [97, 98, 97, 99] ∧ byteAt [97, 98, 97, 99] 2 = some 97
      ∧ ∀ j : Int, 2 < j → j < len [97, 98, 97, 99] → byteAt [97, 98, 97, 99] j ≠ some 97 :=
  (LastIndexByte_spec [97, 98, 97, 99] 97).2.2 2 (by decide) (by decide)

theorem byteAt_drop_cons (s : Str) (i : Nat) (h : i < s.length) :
    ∃ a, byteAt s (i : Int) = some a ∧ s.drop i = a :: s.drop (i + 1) := by
  refine ⟨s[i], ?_, List.drop_eq_getElem_cons h⟩
  rw [byteAt_nat, List.get?_eq_getElem?, List.getElem?_eq_getElem h]

theorem Compare_loop_spec (s1 s2 : Str) (k i : Nat)
    (hk : k = min (s1.length - i) (s2.length - i))
    (hi1 : i ≤ s1.length) (hi2 : i ≤ s2.length) :
    ∃ r, Compare.loop s1 s2 k (i : Int) = some r
      ∧ (match r with
          | some v => v
          | none => if len s1 < len s2 then -1 else if len s1 = len s2 then 0 else 1)
        = compareBytes (s1.drop i) (s2.drop i) := by
  induction k generalizing i with
  | zero =>
    refine ⟨none, rfl, ?_⟩
    rcases Nat.lt_or_ge i s1.length with h1 | h1
    · have h2 : s2.length ≤ i := by omega
      obtain ⟨a, _, ha⟩ := byteAt_drop_cons s1 i h1
      rw [ha, List.drop_eq_nil_of_le h2]
      simp only [compareBytes, len]
      rw [if_neg (by omega), if_neg (by omega)]
    · rw [List.drop_eq_nil_of_le h1]
      rcases Nat.lt_or_ge i s2.length with h2 | h2
      · obtain ⟨b, _, hb⟩ := byteAt_drop_cons s2 i h2
        rw [hb]
        simp only [compareBytes, len]
        rw [if_pos (by omega)]
      · rw [List.drop_eq_nil_of_le h2]
        simp only [compareBytes, len]
        rw [if_neg (by omega), if_pos (by omega)]
  | succ k ih =>
    have h1 : i < s1.length := by omega
    have h2 : i < s2.length := by omega
    obtain ⟨a, ha1, ha2⟩ := byteAt_drop_cons s1 i h1
    obtain ⟨b, hb1, hb2⟩ := byteAt_drop_cons s2 i h2
    have hg : (i : Int) < len s1 ∧ (i : Int) < len s2 := by
      simp only [len]; omega
    rw [ha2, hb2]
    simp only [Compare.loop, if_pos hg, ha1, hb1, Option.bind_eq_bind, Option.some_bind,
      compareBytes]
    by_cases hab : a < b
    · exact ⟨some (-1), by simp [hab], by simp [hab]⟩
    · by_cases hba : a > b
      · exact ⟨some 1, by simp [hab, hba], by simp [hab, hba]⟩
      · obtain ⟨r, hr1, hr2⟩ := ih (i + 1) (by omega) (by omega) (by omega)
        refine ⟨r, ?_, ?_⟩
        · simp only [hab, hba, if_false]
          exact hr1
        · simp only [hab, hba, if_false]
          exact hr2

theorem Compare_eq_compareBytes (s1 s2 : Str) : Compare s1 s2 = some (compareBytes s1 s2) := by
  obtain ⟨r, hr1, hr2⟩ := Compare_loop_spec s1 s2 (min s1.length s2.length) 0 (by simp)
    (Nat.zero_le _) (Nat.zero_le _)
  simp only [List.drop_zero] at hr2
  have hr1' : Compare.loop s1 s2 (min s1.length s2.length) 0 = some r := hr1
  simp only [Compare, hr1', Option.bind_eq_bind, Option.some_bind]
  rw [← hr2]
  cases r with
  | some v => rfl
  | none =>
    simp only
    split_ifs <;> rfl

theorem compareBytes_range (s1 s2 : Str) :
    compareBytes s1 s2 = -1 ∨ compareBytes s1 s2 = 0 ∨ compareBytes s1 s2 = 1 := by
  induction s1 generalizing s2 with
  | nil => cases s2 <;> simp [compareBytes]
  | cons a as ih =>
    cases s2 with
    | nil => simp [compareBytes]
    | cons b bs =>
      simp only [compareBytes]
      split_ifs
      · simp
      · simp
      · exact ih bs

theorem compareBytes_lt_iff (s1 s2 : Str) : compareBytes s1 s2 = -1 ↔ LexLt s1 s2 := by
  induction s1 generalizing s2 with
  | nil => cases s2 <;> simp [compareBytes, LexLt]
  | cons a as ih =>
    cases s2 with
    | nil => simp [compareBytes, LexLt]
    | cons b bs =>
      simp only [compareBytes, LexLt]
      by_cases hab : a < b
      · simp [hab]
      · by_cases hba : a > b
        · have hne : a ≠ b := fun e => by rw [e] at hba; exact lt_irrefl _ hba
          simp [hab, hba, hne]
        · have he : a = b := le_antisymm (not_lt.mp hba) (not_lt.mp hab)
          subst he
          simp only [lt_irrefl, if_false, false_or, true_and]
          exact ih bs

theorem compareBytes_antisymm (s1 s2 : Str) : compareBytes s1 s2 = - compareBytes s2 s1 := by
  induction s1 generalizing s2 with
  | nil => cases s2 <;> simp [compareBytes]
  | cons a as ih =>
    cases s2 with
    | nil => simp [compareBytes]
    | cons b bs =>
      simp only [compareBytes]
      by_cases hab : a < b
      · have hba : ¬ b < a := not_lt.mpr (le_of_lt hab)
        simp [hab, hba]
      · by_cases hba : b < a
        · simp [hab, hba]
        · simp only [hab, hba, gt_iff_lt, if_false]
          exact ih bs

theorem compareBytes_eq_zero_iff (s1 s2 : Str) : compareBytes s1 s2 = 0 ↔ s1 = s2 := by
  induction s1 generalizing s2 with
  | nil => cases s2 <;> simp [compareBytes]
  | cons a as ih =>
    cases s2 with
    | nil => simp [compareBytes]
    | cons b bs =>
      simp only [compareBytes]
      by_cases hab : a < b
      · have hne : a ≠ b := ne_of_lt hab
        simp [hab, hne]
      · by_cases hba : a > b
        · have hne : a ≠ b := fun e => by rw [e] at hba; exact lt_irrefl _ hba
          simp [hab, hba, hne]
        · have he : a = b := le_antisymm (not_lt.mp hba) (not_lt.mp hab)
          subst he
          simp only [lt_irrefl, gt_iff_lt, if_false, List.cons.injEq, true_and]
          exact ih bs

/-- Claim C11: `Compare(s1, s2)` is the sign of the byte-wise lexicographic
order: `-1` exactly when `s1` is smaller (a proper prefix sorting before its
extensions), `1` exactly when `s1` is greater, `0` exactly when `s1 = s2`; the
result is always one of `-1`, `0`, `1`.  `Compare("abc", "abd") = -1`,
`Compare("abc", "ab") = 1`, `Compare("abc", "abc") = 0`. -/
theorem Compare_spec (s1 s2 : Str) :
    (Compare s1 s2 = some (-1) ∨ Compare s1 s2 = some 0 ∨ Compare s1 s2 = some 1)
    ∧ (Compare s1 s2 = some (-1) ↔ LexLt s1 s2)
    ∧ (Compare s1 s2 = some 1 ↔ LexLt s2 s1)
    ∧ (Compare s1 s2 = some 0 ↔ s1 = s2)
    ∧ Compare [97, 98, 99] [97, 98, 100] = some (-1)
    ∧ Compare [97, 98, 99] [97, 98] = some 1
    ∧ Compare [97, 98, 99] [97, 98, 99] = some 0 := by
  rw [Compare_eq_compareBytes]
  refine ⟨?_, ?_, ?_, ?_, by decide, by decide, by decide⟩
  · rcases compareBytes_range s1 s2 with h | h | h <;> simp [h]
  · rw [← compareBytes_lt_iff]
    constructor
    · intro h; exact Option.some.inj h
    · intro h; rw [h]
  · rw [← compareBytes_lt_iff, compareBytes_antisymm s2 s1]
    constructor
    · intro h
      have := Option.some.inj h
      omega
    · intro h
      congr 1
      omega
  · rw [← compareBytes_eq_zero_iff]
    constructor
    · intro h; exact Option.some.inj h
    · intro h; rw [h]

/-- Claim C18: `Compare` is antisymmetric, `Compare(s1, s2) = -Compare(s2, s1)`. -/
theorem Compare_antisymm (s1 s2 : Str) :
    ∃ r : Int, Compare s1 s2 = some r ∧ Compare s2 s1 = some (-r) := by
  refine ⟨compareBytes s1 s2, Compare_eq_compareBytes s1 s2, ?_⟩
  rw [Compare_eq_compareBytes, compareBytes_antisymm s2 s1]

/-! ## `RemoveSpace` -/

theorem set_append_length (w l : Str) (a : Byte) :
    (w ++ l).set w.length a = w ++ l.set 0 a := by
  induction w with
  | nil => rfl
  | cons c cs ih => simp only [List.cons_append, List.length_cons, List.set_cons_succ, ih]

theorem setAt_fill (w : Str) (m : Nat) (a : Byte) :
    setAt (w ++ List.replicate (m + 1) 0) (w.length : Int) a
      = some (w ++ [a] ++ List.replicate m 0) := by
  have hc : 0 ≤ (w.length : Int) ∧ (w.length : Int) < len (w ++ List.replicate (m + 1) 0) := by
    simp only [len, List.length_append, List.length_replicate]
    omega
  simp only [setAt, if_pos hc, Int.toNat_ofNat]
  rw [set_append_length, List.replicate_succ, List.set_cons_zero, List.append_assoc]
  rfl

theorem RemoveSpace_loop_spec (isSpace : Byte → Bool) (s : Str) (k i : Nat) (w : Str)
    (hk : k = s.length - i) (hi : i ≤ s.length) (hw : w.length ≤ i) :
    RemoveSpace.loop isSpace s k (i : Int) (w ++ List.replicate (s.length - w.length) 0)
        (w.length : Int)
      = some ((w ++ (s.drop i).filter (fun c => !isSpace c))
            ++ List.replicate
                (s.length - (w ++ (s.drop i).filter (fun c => !isSpace c)).length) 0,
          ((w ++ (s.drop i).filter (fun c => !isSpace c)).length : Int)) := by
  induction k generalizing i w with
  | zero =>
    have : s.drop i = [] := List.drop_eq_nil_of_le (by omega)
    simp [RemoveSpace.loop, this]
  | succ k ih =>
    have hlt : i < s.length := by omega
    obtain ⟨a, ha1, ha2⟩ := byteAt_drop_cons s i hlt
    have hg : (i : Int) < len s := by simp only [len]; omega
    have hi' : ((i : Int) + 1) = ((i + 1 : Nat) : Int) := by push_cast; rfl
    simp only [RemoveSpace.loop, if_pos hg, ha1, Option.bind_eq_bind, Option.some_bind, ha2,
      List.filter_cons]
    cases hsp : isSpace a with
    | true =>
      simp only [Bool.not_true, Bool.false_eq_true, if_false]
      rw [hi']
      exact ih (i + 1) w (by omega) (by omega) (by omega)
    | false =>
      simp only [Bool.not_false, if_true]
      obtain ⟨m, hm⟩ : ∃ m, s.length - w.length = m + 1 := ⟨s.length - w.length - 1, by omega⟩
      rw [hm, setAt_fill, Option.some_bind, hi']
      have e1 : (w.length : Int) + 1 = ((w ++ [a]).length : Int) := by simp
      have e2 : m = s.length - (w ++ [a]).length := by simp; omega
      rw [e1, e2, ih (i + 1) (w ++ [a]) (by omega) (by omega) (by simp; omega)]
      simp

theorem RemoveSpace_eq_filter (isSpace : Byte → Bool) (s : Str) :
    RemoveSpace isSpace s = some (s.filter (fun c => !isSpace c)) := by
  have h := RemoveSpace_loop_spec isSpace s s.length 0 [] (by simp) (Nat.zero_le _)
    (Nat.le_refl _)
  simp only [List.nil_append, List.length_nil, Nat.sub_zero, List.drop_zero] at h
  have hm : make (len s) = some (List.replicate s.length 0) := by
    simp [make, len]
  have h' : RemoveSpace.loop isSpace s s.length 0 (List.replicate s.length 0) 0
      = some (s.filter (fun c => !isSpace c) ++ List.replicate
          (s.length - (s.filter (fun c => !isSpace c)).length) 0,
          ((s.filter (fun c => !isSpace c)).length : Int)) := h
  simp only [RemoveSpace, hm, Option.bind_eq_bind, Option.some_bind, h']
  rw [sliceTo_nat _ _ (by simp), List.take_left' rfl]

/-- Claim C13: `RemoveSpace(s)` is exactly the subsequence of the bytes of `s`
for which the whitespace predicate is false, in their original order; its
length is the number of such bytes, at most `len(s)`, and it contains no byte
for which the predicate is true. -/
theorem RemoveSpace_spec (isSpace : Byte → Bool) (s : Str) :
    ∃ r, RemoveSpace isSpace s = some r
      ∧ r = s.filter (fun c => !isSpace c)
      ∧ r.length = s.countP (fun c => !isSpace c)
      ∧ len r ≤ len s
      ∧ ∀ c ∈ r, isSpace c = false := by
  refine ⟨s.filter (fun c => !isSpace c), RemoveSpace_eq_filter isSpace s, rfl, ?_, ?_, ?_⟩
  · rw [List.countP_eq_length_filter]
  · simp only [len]
    exact_mod_cast List.length_filter_le _ s
  · intro c hc
    have := (List.mem_filter.mp hc).2
    simpa using this

/-- Claim C12: `RemoveSpace` is idempotent, for any whitespace predicate on
bytes: `RemoveSpace(RemoveSpace(s)) = RemoveSpace(s)`. -/
theorem RemoveSpace_idempotent (isSpace : Byte → Bool) (s : Str) :
    ∃ r, RemoveSpace isSpace s = some r ∧ RemoveSpace isSpace r = some r := by
  refine ⟨s.filter (fun c => !isSpace c), RemoveSpace_eq_filter isSpace s, ?_⟩
  rw [RemoveSpace_eq_filter, List.filter_filter]
  simp

/-! ## `JoinInt` and `JoinUint` -/

theorem intercalate_cons_flatten (sep x : Str) (xs : List Str) :
    List.intercalate sep (x :: xs) = x ++ (xs.map (fun y => sep ++ y)).flatten := by
  induction xs generalizing x with
  | nil => simp [List.intercalate]
  | cons y ys ih =>
    have := ih y
    simp only [List.intercalate, List.intersperse, List.flatten_cons, List.map_cons,
      List.append_assoc] at this ⊢
    rw [this]

theorem JoinInt_loop_eq (sep : Str) (rest : List Int) (w : Str) :
    JoinInt.loop sep rest ⟨w⟩ = ⟨w ++ ((rest.map Itoa).map (fun y => sep ++ y)).flatten⟩ := by
  induction rest generalizing w with
  | nil => simp [JoinInt.loop]
  | cons x xs ih =>
    simp only [JoinInt.loop, Buffer.WriteString, ih, List.map_cons, List.flatten_cons,
      List.append_assoc]

theorem JoinUint_loop_eq (sep : Str) (rest : List Nat) (w : Str) :
    JoinUint.loop sep rest ⟨w⟩
      = ⟨w ++ ((rest.map FormatUint).map (fun y => sep ++ y)).flatten⟩ := by
  induction rest generalizing w with
  | nil => simp [JoinUint.loop]
  | cons x xs ih =>
    simp only [JoinUint.loop, Buffer.WriteString, ih, List.map_cons, List.flatten_cons,
      List.append_assoc]

theorem digitByte_val (d : Nat) : (digitByte d).val = 48 + d % 10 := by
  have h : 48 + d % 10 < 256 := by omega
  simp only [digitByte, Fin.ofNat, Nat.mod_eq_of_lt h]

theorem formatBits_loop_append (k u : Nat) (a : Str) :
    formatBits.loop k u a = formatBits.loop k u [] ++ a := by
  induction k generalizing u a with
  | zero => rfl
  | succ k ih =>
    simp only [formatBits.loop]
    split_ifs
    · rw [ih (u / 10) (digitByte (u % 10) :: a), ih (u / 10) [digitByte (u % 10)]]
      simp
    · rfl

theorem decimalValue_concat (s : Str) (d : Byte) :
    decimalValue (s ++ [d]) = 10 * decimalValue s + (d.val - 48) := by
  simp [decimalValue, List.foldl_append]

theorem formatBits_loop_value (k u : Nat) (h : u ≤ k) :
    decimalValue (formatBits.loop k u []) = u
      ∧ ∀ d ∈ formatBits.loop k u [], 48 ≤ d.val ∧ d.val ≤ 57 := by
  induction k generalizing u with
  | zero =>
    have hu : u = 0 := by omega
    subst hu
    simp [formatBits.loop, decimalValue, digitByte_val]
  | succ k ih =>
    simp only [formatBits.loop]
    split_ifs with h10
    · obtain ⟨h1, h2⟩ := ih (u / 10) (by omega)
      rw [formatBits_loop_append, decimalValue_concat, h1, digitByte_val]
      refine ⟨by omega, fun d hd => ?_⟩
      rcases List.mem_append.mp hd with hd | hd
      · exact h2 d hd
      · rw [List.mem_singleton.mp hd, digitByte_val]
        omega
    · refine ⟨?_, fun d hd => ?_⟩
      · simp only [decimalValue, List.foldl_cons, List.foldl_nil, digitByte_val]
        omega
      · rw [List.mem_singleton.mp hd, digitByte_val]
        omega

/-- The string `strconv.FormatUint(u, 10)` consists of decimal digits and
denotes `u`. -/
theorem FormatUint_value (u : Nat) :
    decimalValue (FormatUint u) = u ∧ ∀ d ∈ FormatUint u, 48 ≤ d.val ∧ d.val ≤ 57 :=
  formatBits_loop_value u u (Nat.le_refl _)

/-- Claim C14: `JoinInt(v, sep)` is the base-10 renderings of the elements of
`v`, in order, joined by `sep`, and the empty string for the empty `v`;
`JoinUint` satisfies the same equation for unsigned integers.
`JoinInt([], ",") = ""` and `JoinInt([1,2,3], ",") = "1,2,3"`.  The rendering of
an unsigned integer consists of decimal digits and denotes it; the rendering
of a negative integer is a minus sign followed by that of its absolute
value. -/
theorem JoinInt_spec :
    (∀ (v : List Int) (sep : Str),
        JoinInt v sep = some (List.intercalate sep (v.map Itoa)))
    ∧ (∀ sep : Str, JoinInt [] sep = some [])
    ∧ (∀ (v : List Nat) (sep : Str),
        JoinUint v sep = some (List.intercalate sep (v.map FormatUint)))
    ∧ (∀ sep : Str, JoinUint [] sep = some [])
    ∧ JoinInt [] [44] = some []
    ∧ JoinInt [1, 2, 3] [44] = some [49, 44, 50, 44, 51]
    ∧ (∀ u : Nat, decimalValue (FormatUint u) = u
        ∧ ∀ d ∈ FormatUint u, 48 ≤ d.val ∧ d.val ≤ 57)
    ∧ (∀ i : Int, 0 ≤ i → Itoa i = FormatUint i.toNat)
    ∧ (∀ i : Int, i < 0 → Itoa i = 45 :: FormatUint (-i).toNat) := by
  refine ⟨?_, fun _ => rfl, ?_, fun _ => rfl, by decide, by decide, FormatUint_value,
    fun i hi => by simp only [Itoa]; rw [if_neg (by omega)],
    fun i hi => by simp only [Itoa]; rw [if_pos hi]⟩
  · intro v sep
    cases v with
    | nil => simp [JoinInt, List.intercalate]
    | cons x xs =>
      rw [List.map_cons, intercalate_cons_flatten]
      simp [JoinInt, NewBuffer, Buffer.WriteString, JoinInt_loop_eq, Buffer.String]
  · intro v sep
    cases v with
    | nil => simp [JoinUint, List.intercalate]
    | cons x xs =>
      rw [List.map_cons, intercalate_cons_flatten]
      simp [JoinUint, NewBuffer, Buffer.WriteString, JoinUint_loop_eq, Buffer.String]

/-! ## `SplitAtLastN` with a count that is not positive -/

/-- For a count that is not positive neither loop runs: `SplitAtLastN` returns
its zero-initialised result, `SplitAtN` returns `-1`. -/
theorem SplitAtLastN_nonpos (str sep : Str) (n : Int) (hn : n ≤ 0) :
    SplitAtLastN str sep n = some 0 ∧ SplitAtN str sep n = some (-1) := by
  have h : n.toNat = 0 := Int.toNat_eq_zero.mpr hn
  constructor
  · simp [SplitAtLastN, h, SplitAtLastN.loop]
  · simp [SplitAtN, h, SplitAtN.loop]

/-- Claim C17, evaluation at the failing inputs: for the zero count (and a
negative one) `SplitAtLastN` returns `0`, the initial value of its named
result, whereas `SplitAtN` returns `-1`. -/
theorem SplitAtLastN_zero_count :
    SplitAtLastN [97, 46, 98] [46] 0 = some 0
    ∧ SplitAtN [97, 46, 98] [46] 0 = some (-1)
    ∧ SplitAtLastN [] [] 0 = some 0
    ∧ SplitAtLastN [97, 46, 98] [46] (-2) = some 0
    ∧ SplitAtLastN [97, 46, 98] [46] 0 ≠ some (-1) := by
  decide

/-! ## `RepeatJoin` and `SuffixJoin` -/

/-- Claim C20, amended: for `count >= 0`, whenever the buffer capacity
`(len(s)+len(sep))*count - len(sep)` of the general path of `RepeatJoin`
(`count >= 3`) is below `2^63`, `RepeatJoin(s, sep, count)` and
`SuffixJoin(xs, "", sep)`, where `xs` is the sequence of `count` copies of `s`,
both return, and return the same string. -/
theorem RepeatJoin_eq_SuffixJoin (s sep : Str) (count : Int) (h : 0 ≤ count)
    (hcap : 3 ≤ count → (len s + len sep) * count - len sep < 9223372036854775808) :
    RepeatJoin s sep count = SuffixJoin (List.replicate count.toNat s) [] sep
    ∧ ∃ r, RepeatJoin s sep count = some r
        ∧ SuffixJoin (List.replicate count.toNat s) [] sep = some r := by
  obtain ⟨n, hn⟩ := Int.eq_ofNat_of_zero_le h
  subst hn
  have h1 := RepeatJoin_nat s sep n (fun h3 => hcap (by omega))
  have h2 : SuffixJoin (List.replicate (n : Int).toNat s) [] sep = some (repeated s sep n) := by
    rw [SuffixJoin_eq_intercalate, Int.toNat_ofNat, repeated_eq_intercalate]
    congr 2
    simp
  exact ⟨by rw [h1, h2], repeated s sep n, h1, h2⟩

/-- Witness for `RepeatJoin_eq_SuffixJoin`: `s = "xy"`, `sep = "-"` with the
counts 3 and 0. -/
theorem RepeatJoin_eq_SuffixJoin_witness :
    RepeatJoin [120, 121] [45] 3 = SuffixJoin (List.replicate (3 : Int).toNat [120, 121]) [] [45]
    ∧ ∃ r, RepeatJoin [120, 121] [45] 0 = some r
        ∧ SuffixJoin (List.replicate (0 : Int).toNat [120, 121]) [] [45] = some r :=
  ⟨(RepeatJoin_eq_SuffixJoin [120, 121] [45] 3 (by decide) (by decide)).1,
   (RepeatJoin_eq_SuffixJoin [120, 121] [45] 0 (by decide) (by decide)).2⟩

/-- Claim C20 as stated fails: for `s = "ab"`, `sep = ""` and `count = 1<<62`
the call of `RepeatJoin` panics in `make`, so it returns no string that could
equal the result of `SuffixJoin`. -/
theorem RepeatJoin_SuffixJoin_capacity_wraps :
    (0 : Int) ≤ 4611686018427387904
    ∧ RepeatJoin [97, 98] [] 4611686018427387904 = none
    ∧ ¬ (∀ (s sep : Str) (count : Int), 0 ≤ count →
          ∃ r, RepeatJoin s sep count = some r
            ∧ SuffixJoin (List.replicate count.toNat s) [] sep = some r) := by
  refine ⟨by decide, RepeatJoin_two_pow_62, fun h => ?_⟩
  obtain ⟨r, hr, _⟩ := h [97, 98] [] 4611686018427387904 (by decide)
  rw [RepeatJoin_two_pow_62] at hr
  cases hr

/-! ## `unicode/utf8` decoding -/

set_option maxRecDepth 100000 in
theorem first_ascii : ∀ b : Byte, b.val < 0x80 → first b = 0xF0 := by decide

set_option maxRecDepth 100000 in
theorem first_size : ∀ b : Byte, first b < 0xF0 → 2 ≤ first b &&& 7 := by decide

set_option maxRecDepth 100000 in
theorem first_size_le : ∀ b : Byte, first b < 0xF0 → first b &&& 7 ≤ 4 := by decide

set_option maxRecDepth 100000 in
theorem first_accept : ∀ b : Byte, first b < 0xF0 →
    0x80 ≤ (acceptRanges (first b >>> 4)).1 ∧ (acceptRanges (first b >>> 4)).2 ≤ 0xBF := by
  decide

set_option maxRecDepth 100000 in
theorem RuneStart_iff : ∀ b : Byte, RuneStart b = true ↔ (b.val < 0x80 ∨ 0xBF < b.val) := by
  decide

set_option maxRecDepth 100000 in
theorem first_continuation : ∀ b : Byte, RuneStart b = false → first b = 0xF1 := by decide

set_option maxRecDepth 100000 in
theorem asciiSpace_iff : ∀ b : Byte, b.val < 0x80 → (asciiSpace b = 0 ↔ IsSpace b.val = false) := by
  decide

theorem IsSpace_RuneError : IsSpace RuneError = false := by decide


theorem Decode_ascii (c : Byte) (t : Str) (h : c.val < 0x80) :
    DecodeRuneInString (c :: t) = (c.val, 1) := by
  simp [DecodeRuneInString, first_ascii c h]

theorem Decode_invalid_first (c : Byte) (t : Str) (h : first c = 0xF1) :
    DecodeRuneInString (c :: t) = (RuneError, 1) := by
  simp [DecodeRuneInString, h]

theorem Decode_width (x : Str) (hx : x ≠ []) :
    1 ≤ (DecodeRuneInString x).2 ∧ (DecodeRuneInString x).2 ≤ x.length := by
  cases x with
  | nil => exact absurd rfl hx
  | cons s0 t =>
    have hl : 1 ≤ (s0 :: t).length := by simp
    rcases Nat.lt_or_ge (first s0) 0xF0 with hX | hX
    · have hsz := first_size s0 hX
      unfold DecodeRuneInString
      simp only []
      split_ifs <;> simp only [le_refl, true_and] <;> omega
    · unfold DecodeRuneInString
      simp only []
      split_ifs <;> simp only [le_refl, true_and] <;> omega


theorem Decode_append_stable (x y : Str) (r w : Nat) (h : DecodeRuneInString x = (r, w))
    (hv : 2 ≤ w ∨ r ≠ RuneError) : DecodeRuneInString (x ++ y) = (r, w) := by
  cases x with
  | nil =>
    simp only [DecodeRuneInString, Prod.mk.injEq] at h
    omega
  | cons s0 t =>
    rcases Nat.lt_or_ge (first s0) 0xF0 with hX | hX
    · have hsz := first_size s0 hX
      have hX' : ¬ (first s0 ≥ 0xF0) := by omega
      match t with
      | [] =>
        unfold DecodeRuneInString at h
        simp only [hX', if_false, List.length_singleton] at h
        rw [if_pos (by omega)] at h
        simp only [Prod.mk.injEq] at h
        omega
      | [s1] =>
        unfold DecodeRuneInString at h ⊢
        simp only [hX', if_false, List.length_cons, List.length_nil, List.cons_append,
          List.nil_append, List.getD_cons_succ, List.getD_cons_zero] at h ⊢
        generalize first s0 &&& 7 = sz at h hsz ⊢
        generalize acceptRanges (first s0 >>> 4) = acc at h ⊢
        generalize ((↑s0 &&& 31) <<< 6 ||| ↑s1 &&& 63 : Nat) = v2 at h ⊢
        split_ifs at h ⊢ <;>
          first | exact h | (simp only [Prod.mk.injEq] at h; omega)
      | [s1, s2] =>
        unfold DecodeRuneInString at h ⊢
        simp only [hX', if_false, List.length_cons, List.length_nil, List.cons_append,
          List.nil_append, List.getD_cons_succ, List.getD_cons_zero] at h ⊢
        generalize first s0 &&& 7 = sz at h hsz ⊢
        generalize acceptRanges (first s0 >>> 4) = acc at h ⊢
        generalize ((↑s0 &&& 31) <<< 6 ||| ↑s1 &&& 63 : Nat) = v2 at h ⊢
        generalize ((↑s0 &&& 15) <<< 12 ||| (↑s1 &&& 63) <<< 6 ||| ↑s2 &&& 63 : Nat) = v3 at h ⊢
        split_ifs at h ⊢ <;>
          first | exact h | (simp only [Prod.mk.injEq] at h; omega)
      | s1 :: s2 :: s3 :: t' =>
        have hsz4 := first_size_le s0 hX
        unfold DecodeRuneInString at h ⊢
        simp only [hX', if_false, List.length_cons, List.length_nil, List.cons_append,
          List.nil_append, List.getD_cons_succ, List.getD_cons_zero, List.length_append] at h ⊢
        rw [if_neg (by omega)] at h ⊢
        exact h
    · unfold DecodeRuneInString at h ⊢
      simp only [List.cons_append, hX, if_true] at h ⊢
      exact h


theorem Decode_width_append (y rest : Str) (hy : y ≠ [])
    (hw : (DecodeRuneInString y).2 = y.length)
    (hr : ∀ c, rest.head? = some c → RuneStart c = true) :
    (DecodeRuneInString (y ++ rest)).2 = y.length := by
  rcases Nat.lt_or_ge (DecodeRuneInString y).2 2 with h1 | h2
  · -- width one: `y` is a single byte
    have hlen : y.length = 1 := by have := (Decode_width y hy).1; omega
    obtain ⟨s0, rfl⟩ := List.length_eq_one.mp hlen
    cases rest with
    | nil => simpa using hw
    | cons b rest' =>
      have hb := (RuneStart_iff b).mp (hr b rfl)
      rcases Nat.lt_or_ge (first s0) 0xF0 with hX | hX
      · have hacc := first_accept s0 hX
        have hX' : ¬ (first s0 ≥ 0xF0) := by omega
        unfold DecodeRuneInString
        simp only [List.singleton_append, hX', if_false, List.getD_cons_succ,
          List.getD_cons_zero, List.length_singleton]
        generalize acceptRanges (first s0 >>> 4) = acc at hacc ⊢
        have hout : (b : Nat) < acc.1 ∨ acc.2 < (b : Nat) := by omega
        split_ifs <;> rfl
      · unfold DecodeRuneInString
        simp only [List.singleton_append, hX, if_true, List.length_singleton]
  · have := Decode_append_stable y rest (DecodeRuneInString y).1 (DecodeRuneInString y).2
      Prod.mk.eta.symm (Or.inl h2)
    rw [this]
    exact hw

theorem drop_length_pred (x : Str) (hx : x ≠ []) :
    x.drop (x.length - 1) = [x.getD (x.length - 1) 0] := by
  have hpos : 0 < x.length := List.length_pos.mpr hx
  have hlt : x.length - 1 < x.length := by omega
  rw [List.drop_eq_getElem_cons hlt, List.getD_eq_getElem _ _ hlt]
  congr 1
  exact List.drop_eq_nil_of_le (by omega)

theorem DecodeLast_scan_le (s : Str) (lim : Int) (k : Nat) (start : Int) :
    DecodeLastRuneInString.scan s lim k start ≤ start := by
  induction k generalizing start with
  | zero => exact le_refl _
  | succ k ih =>
    simp only [DecodeLastRuneInString.scan]
    split_ifs
    · exact le_refl _
    · have := ih (start - 1)
      omega
    · exact le_refl _

/-- The three outcomes of `utf8.DecodeLastRuneInString` on a non-empty string:
its width is between one and the length, the forward decoder at the start of
the last rune has the same width, and a white space result is what the forward
decoder yields there. -/
theorem DecodeLast_spec (x : Str) (hx : x ≠ []) :
    1 ≤ (DecodeLastRuneInString x).2 ∧ (DecodeLastRuneInString x).2 ≤ x.length
    ∧ (DecodeRuneInString (x.drop (x.length - (DecodeLastRuneInString x).2))).2
        = (DecodeLastRuneInString x).2
    ∧ (IsSpace (DecodeLastRuneInString x).1 = true →
        DecodeRuneInString (x.drop (x.length - (DecodeLastRuneInString x).2))
          = DecodeLastRuneInString x) := by
  have hpos : 0 < x.length := List.length_pos.mpr hx
  have hn0 : ¬ (x.length = 0) := by omega
  have hlast := drop_length_pred x hx
  by_cases hc : (x.getD (x.length - 1) 0).val < RuneSelf
  · have hd : DecodeLastRuneInString x = ((x.getD (x.length - 1) 0).val, 1) := by
      simp only [DecodeLastRuneInString, hn0, if_false, hc, if_true]
    rw [hd]
    simp only
    rw [hlast, Decode_ascii _ _ hc]
    exact ⟨le_refl _, hpos, rfl, fun _ => rfl⟩
  · -- the multi-byte path
    obtain ⟨st, hst, hd⟩ : ∃ st : Nat, st < x.length ∧
        DecodeLastRuneInString x
          = if st + (DecodeRuneInString (x.drop st)).2 ≠ x.length then (RuneError, 1)
            else DecodeRuneInString (x.drop st) := by
      refine ⟨if DecodeLastRuneInString.scan x
          (if (x.length : Int) - 4 < 0 then 0 else (x.length : Int) - 4) 4
          ((x.length : Int) - 2) < 0 then 0
        else (DecodeLastRuneInString.scan x
          (if (x.length : Int) - 4 < 0 then 0 else (x.length : Int) - 4) 4
          ((x.length : Int) - 2)).toNat, ?_, ?_⟩
      · have hsc := DecodeLast_scan_le x
          (if (x.length : Int) - 4 < 0 then 0 else (x.length : Int) - 4) 4
          ((x.length : Int) - 2)
        generalize DecodeLastRuneInString.scan x
          (if (x.length : Int) - 4 < 0 then 0 else (x.length : Int) - 4) 4
          ((x.length : Int) - 2) = sc at hsc ⊢
        split_ifs <;> omega
      · simp only [DecodeLastRuneInString, hn0, if_false, hc, List.take_length]
    by_cases he : st + (DecodeRuneInString (x.drop st)).2 ≠ x.length
    · rw [if_pos he] at hd
      rw [hd]
      simp only
      have hw := Decode_width [x.getD (x.length - 1) 0] (by simp)
      simp only [List.length_singleton] at hw
      rw [hlast]
      refine ⟨le_refl _, hpos, by omega, fun h => ?_⟩
      rw [IsSpace_RuneError] at h
      cases h
    · rw [if_neg he] at hd
      have he' : st + (DecodeRuneInString (x.drop st)).2 = x.length := not_not.mp he
      have hne : x.drop st ≠ [] := by
        intro h
        have := congrArg List.length h
        simp only [List.length_drop, List.length_nil] at this
        omega
      have hw := Decode_width (x.drop st) hne
      have hidx : x.length - (DecodeRuneInString (x.drop st)).2 = st := by omega
      rw [hd, hidx]
      exact ⟨hw.1, by omega, rfl, fun _ => rfl⟩

/-! ## `strings.TrimLeftFunc` and `strings.TrimRightFunc` -/

theorem Decode_space_head (y : Str) (h : IsSpace (DecodeRuneInString y).1 = true) :
    ∀ c, y.head? = some c → RuneStart c = true := by
  intro c hc
  cases y with
  | nil => cases hc
  | cons s0 t =>
    have hc0 : s0 = c := by simpa using hc
    subst hc0
    by_contra hn
    have hf := first_continuation s0 (by simpa using hn)
    rw [Decode_invalid_first s0 t hf, IsSpace_RuneError] at h
    cases h

theorem indexFunc_go_spec (f : Nat → Bool) (k : Nat) (s : Str) (i : Nat)
    (hk : s.length ≤ k) :
    indexFunc.go f k s i = -1
      ∨ ∃ m, m < s.length ∧ indexFunc.go f k s i = ((i + m : Nat) : Int)
          ∧ f (DecodeRuneInString (s.drop m)).1 = false := by
  induction k generalizing s i with
  | zero =>
    left
    rfl
  | succ k ih =>
    by_cases hs : s = []
    · left
      simp [indexFunc.go, hs]
    · have hw := Decode_width s hs
      have hpos : 0 < s.length := List.length_pos.mpr hs
      by_cases hf : f (DecodeRuneInString s).1 = false
      · right
        exact ⟨0, hpos, by simp [indexFunc.go, hs, hf], by simpa using hf⟩
      · have hstep : indexFunc.go f (k + 1) s i
            = indexFunc.go f k (s.drop (DecodeRuneInString s).2)
                (i + (DecodeRuneInString s).2) := by
          have hf' : f (DecodeRuneInString s).1 = true := by simpa using hf
          simp [indexFunc.go, hs, hf']
        rcases ih (s.drop (DecodeRuneInString s).2) (i + (DecodeRuneInString s).2)
          (by simp only [List.length_drop]; omega) with h | ⟨m, h1, h2, h3⟩
        · left
          rw [hstep, h]
        · right
          simp only [List.length_drop] at h1
          refine ⟨(DecodeRuneInString s).2 + m, by omega, ?_, ?_⟩
          · rw [hstep, h2]
            congr 1
            omega
          · rw [List.drop_drop] at h3
            exact h3

theorem TrimLeftFunc_spec (t : Str) (f : Nat → Bool) :
    TrimLeftFunc t f = []
      ∨ ∃ m, m < t.length ∧ TrimLeftFunc t f = t.drop m
          ∧ f (DecodeRuneInString (t.drop m)).1 = false := by
  rcases indexFunc_go_spec f t.length t 0 (Nat.le_refl _) with h | ⟨m, h1, h2, h3⟩
  · left
    simp [TrimLeftFunc, indexFunc, h]
  · right
    refine ⟨m, h1, ?_, h3⟩
    simp only [TrimLeftFunc, indexFunc, h2, Nat.zero_add]
    rw [if_neg (by omega), Int.toNat_ofNat]

theorem TrimLeftFunc_id (t : Str) (f : Nat → Bool) (ht : t ≠ [])
    (h : f (DecodeRuneInString t).1 = false) : TrimLeftFunc t f = t := by
  obtain ⟨n, hn⟩ : ∃ n, t.length = n + 1 :=
    ⟨t.length - 1, by have := List.length_pos.mpr ht; omega⟩
  simp [TrimLeftFunc, indexFunc, hn, indexFunc.go, ht, h]


theorem head_drop_take (u : Str) (i j : Nat) (h : j < i) :
    ((u.take i).drop j).head? = (u.drop j).head? := by
  rw [List.drop_take, List.head?_take]
  rw [if_neg (by omega)]

theorem lastIndexFunc_go_spec (u : Str) (k i : Nat) (hi : i ≤ u.length) (hk : i ≤ k)
    (hB : ∀ c, (u.drop i).head? = some c → RuneStart c = true) :
    lastIndexFunc.go u IsSpace k i = -1
      ∨ ∃ j, 1 ≤ j ∧ j ≤ i
          ∧ (∀ c, (u.drop j).head? = some c → RuneStart c = true)
          ∧ IsSpace (DecodeLastRuneInString (u.take j)).1 = false
          ∧ lastIndexFunc.go u IsSpace k i
              = ((j - (DecodeLastRuneInString (u.take j)).2 : Nat) : Int) := by
  induction k generalizing i with
  | zero =>
    left
    rfl
  | succ k ih =>
    by_cases hpos : i > 0
    · have hne : u.take i ≠ [] := by
        intro h
        have := congrArg List.length h
        simp only [List.length_take, List.length_nil] at this
        omega
      have hlen : (u.take i).length = i := by
        simp only [List.length_take]; omega
      obtain ⟨hw1, hw2, _, hw4⟩ := DecodeLast_spec (u.take i) hne
      rw [hlen] at hw2 hw4
      by_cases hf : IsSpace (DecodeLastRuneInString (u.take i)).1 = false
      · right
        refine ⟨i, hpos, Nat.le_refl _, hB, hf, ?_⟩
        simp [lastIndexFunc.go, hpos, hf]
      · have hf' : IsSpace (DecodeLastRuneInString (u.take i)).1 = true := by simpa using hf
        have hstep : lastIndexFunc.go u IsSpace (k + 1) i
            = lastIndexFunc.go u IsSpace k (i - (DecodeLastRuneInString (u.take i)).2) := by
          simp [lastIndexFunc.go, hpos, hf']
        have hB' : ∀ c, (u.drop (i - (DecodeLastRuneInString (u.take i)).2)).head? = some c →
            RuneStart c = true := by
          intro c hc
          have hd := hw4 hf'
          have hsp : IsSpace (DecodeRuneInString
              ((u.take i).drop (i - (DecodeLastRuneInString (u.take i)).2))).1 = true := by
            rw [hd]; exact hf'
          apply Decode_space_head _ hsp c
          rw [head_drop_take u i _ (by omega)]
          exact hc
        rcases ih (i - (DecodeLastRuneInString (u.take i)).2) (by omega) (by omega) hB'
          with h | ⟨j, h1, h2, h3, h4, h5⟩
        · left
          rw [hstep, h]
        · right
          exact ⟨j, h1, by omega, h3, h4, by rw [hstep, h5]⟩
    · left
      simp [lastIndexFunc.go, hpos]

theorem TrimRightFunc_of_index (u : Str) (j : Nat) (h1 : 1 ≤ j) (h2 : j ≤ u.length)
    (hB : ∀ c, (u.drop j).head? = some c → RuneStart c = true)
    (hidx : lastIndexFunc u IsSpace
      = ((j - (DecodeLastRuneInString (u.take j)).2 : Nat) : Int)) :
    TrimRightFunc u IsSpace = u.take j := by
  have hne : u.take j ≠ [] := by
    intro h
    have := congrArg List.length h
    simp only [List.length_take, List.length_nil] at this
    omega
  have hlen : (u.take j).length = j := by
    simp only [List.length_take]; omega
  obtain ⟨hw1, hw2, hw3, _⟩ := DecodeLast_spec (u.take j) hne
  rw [hlen] at hw2 hw3
  generalize hsz : (DecodeLastRuneInString (u.take j)).2 = size at hw1 hw2 hw3 hidx
  -- the bytes of the last rune, and what follows them
  have hsplit : u.drop (j - size) = (u.take j).drop (j - size) ++ u.drop j := by
    have := congrArg (List.drop (j - size)) (List.take_append_drop j u)
    rw [List.drop_append_of_le_length (by omega)] at this
    exact this.symm
  have hyne : (u.take j).drop (j - size) ≠ [] := by
    intro h
    have := congrArg List.length h
    simp only [List.length_drop, List.length_take, List.length_nil] at this
    omega
  have hylen : ((u.take j).drop (j - size)).length = size := by
    simp only [List.length_drop, List.length_take]; omega
  have hwid : (DecodeRuneInString (u.drop (j - size))).2 = size := by
    rw [hsplit, Decode_width_append _ _ hyne (by rw [hw3, hylen]) hB, hylen]
  have hlt : j - size < u.length := by omega
  simp only [TrimRightFunc, hidx, Int.toNat_ofNat, hwid]
  by_cases hc : (u.getD (j - size) 0).val ≥ RuneSelf
  · rw [if_pos ⟨by omega, hc⟩]
    have : ((j - size : Nat) : Int) + (size : Int) = ((j : Nat) : Int) := by omega
    rw [this, Int.toNat_ofNat]
  · rw [if_neg (fun h => hc h.2)]
    have hd : u.drop (j - size) = u.getD (j - size) 0 :: u.drop (j - size + 1) := by
      rw [List.drop_eq_getElem_cons hlt, List.getD_eq_getElem _ _ hlt]
    have h1' : size = 1 := by
      rw [hd, Decode_ascii _ _ (by simpa [RuneSelf] using hc)] at hwid
      exact hwid.symm
    have : ((j - size : Nat) : Int) + 1 = ((j : Nat) : Int) := by omega
    rw [this, Int.toNat_ofNat]

theorem TrimRightFunc_nil_of_index (u : Str) (h : lastIndexFunc u IsSpace = -1) :
    TrimRightFunc u IsSpace = [] := by
  simp [TrimRightFunc, h]

theorem TrimRightFunc_spec (u : Str) :
    TrimRightFunc u IsSpace = []
      ∨ ∃ j, 1 ≤ j ∧ j ≤ u.length ∧ TrimRightFunc u IsSpace = u.take j
          ∧ IsSpace (DecodeLastRuneInString (u.take j)).1 = false := by
  have hB : ∀ c, (u.drop u.length).head? = some c → RuneStart c = true := by
    intro c hc
    rw [List.drop_length] at hc
    cases hc
  rcases lastIndexFunc_go_spec u u.length u.length (Nat.le_refl _) (Nat.le_refl _) hB
    with h | ⟨j, h1, h2, h3, h4, h5⟩
  · exact Or.inl (TrimRightFunc_nil_of_index u h)
  · exact Or.inr ⟨j, h1, h2, TrimRightFunc_of_index u j h1 h2 h3 h5, h4⟩

theorem TrimRightFunc_id (u : Str) (hu : u ≠ [])
    (h : IsSpace (DecodeLastRuneInString u).1 = false) : TrimRightFunc u IsSpace = u := by
  have hpos : 0 < u.length := List.length_pos.mpr hu
  obtain ⟨n, hn⟩ : ∃ n, u.length = n + 1 := ⟨u.length - 1, by omega⟩
  have hB : ∀ c, (u.drop u.length).head? = some c → RuneStart c = true := by
    intro c hc
    rw [List.drop_length] at hc
    cases hc
  have hidx : lastIndexFunc u IsSpace
      = ((u.length - (DecodeLastRuneInString (u.take u.length)).2 : Nat) : Int) := by
    rw [List.take_length]
    simp only [lastIndexFunc]
    rw [hn]
    simp only [lastIndexFunc.go]
    rw [← hn, List.take_length]
    simp [hpos, h]
  have := TrimRightFunc_of_index u u.length hpos (Nat.le_refl _) hB hidx
  rw [this, List.take_length]

/-! ## `strings.TrimSpace` is idempotent -/

theorem startLoop_spec (t : Str) (k : Nat) :
    ∃ a, a ≤ t.length ∧ (TrimSpace.startLoop t k).1 = k + a
      ∧ (((TrimSpace.startLoop t k).2 = true
            ∧ ∃ c rest, t.drop a = c :: rest ∧ c.val ≥ RuneSelf)
          ∨ ((TrimSpace.startLoop t k).2 = false
            ∧ (t.drop a = []
                ∨ ∃ c rest, t.drop a = c :: rest ∧ c.val < RuneSelf ∧ asciiSpace c = 0))) := by
  induction t generalizing k with
  | nil => exact ⟨0, Nat.le_refl _, rfl, Or.inr ⟨rfl, Or.inl rfl⟩⟩
  | cons c cs ih =>
    by_cases h1 : c.val ≥ RuneSelf
    · refine ⟨0, Nat.zero_le _, by simp [TrimSpace.startLoop, h1],
        Or.inl ⟨by simp [TrimSpace.startLoop, h1], c, cs, rfl, h1⟩⟩
    · by_cases h2 : asciiSpace c = 0
      · refine ⟨0, Nat.zero_le _, by simp [TrimSpace.startLoop, h1, h2],
          Or.inr ⟨by simp [TrimSpace.startLoop, h1, h2], Or.inr ⟨c, cs, rfl, by omega, h2⟩⟩⟩
      · obtain ⟨a, ha1, ha2, ha3⟩ := ih (k + 1)
        have hstep : TrimSpace.startLoop (c :: cs) k = TrimSpace.startLoop cs (k + 1) := by
          simp [TrimSpace.startLoop, h1, h2]
        refine ⟨a + 1, by simp only [List.length_cons]; omega, by rw [hstep, ha2]; omega, ?_⟩
        rw [hstep]
        simpa only [List.drop_succ_cons] using ha3

theorem stopLoop_spec (t : Str) (k : Nat) :
    ∃ a, a ≤ t.length ∧ (TrimSpace.stopLoop t k).1 = k - a
      ∧ (((TrimSpace.stopLoop t k).2 = true
            ∧ ∃ c rest, t.drop a = c :: rest ∧ c.val ≥ RuneSelf)
          ∨ ((TrimSpace.stopLoop t k).2 = false
            ∧ (t.drop a = []
                ∨ ∃ c rest, t.drop a = c :: rest ∧ c.val < RuneSelf ∧ asciiSpace c = 0))) := by
  induction t generalizing k with
  | nil => exact ⟨0, Nat.le_refl _, rfl, Or.inr ⟨rfl, Or.inl rfl⟩⟩
  | cons c cs ih =>
    by_cases h1 : c.val ≥ RuneSelf
    · refine ⟨0, Nat.zero_le _, by simp [TrimSpace.stopLoop, h1],
        Or.inl ⟨by simp [TrimSpace.stopLoop, h1], c, cs, rfl, h1⟩⟩
    · by_cases h2 : asciiSpace c = 0
      · refine ⟨0, Nat.zero_le _, by simp [TrimSpace.stopLoop, h1, h2],
          Or.inr ⟨by simp [TrimSpace.stopLoop, h1, h2], Or.inr ⟨c, cs, rfl, by omega, h2⟩⟩⟩
      · obtain ⟨a, ha1, ha2, ha3⟩ := ih (k - 1)
        have hstep : TrimSpace.stopLoop (c :: cs) k = TrimSpace.stopLoop cs (k - 1) := by
          simp [TrimSpace.stopLoop, h1, h2]
        refine ⟨a + 1, by simp only [List.length_cons]; omega,
          by rw [hstep, ha2, Nat.sub_sub, Nat.add_comm 1 a], ?_⟩
        rw [hstep]
        simpa only [List.drop_succ_cons] using ha3


theorem Decode_take_not_space (u : Str) (j : Nat)
    (h : IsSpace (DecodeRuneInString u).1 = false) :
    IsSpace (DecodeRuneInString (u.take j)).1 = false := by
  by_contra hn
  have hs : IsSpace (DecodeRuneInString (u.take j)).1 = true := by simpa using hn
  have hne : (DecodeRuneInString (u.take j)).1 ≠ RuneError := by
    intro e
    rw [e, IsSpace_RuneError] at hs
    cases hs
  have := Decode_append_stable (u.take j) (u.drop j) (DecodeRuneInString (u.take j)).1
    (DecodeRuneInString (u.take j)).2 Prod.mk.eta.symm (Or.inr hne)
  rw [List.take_append_drop] at this
  rw [this] at h
  rw [hs] at h
  cases h

theorem DecodeLast_ascii (x : Str) (e : Byte) (q : Str) (hx : x.reverse = e :: q)
    (he : e.val < RuneSelf) : DecodeLastRuneInString x = (e.val, 1) := by
  have hx' : x = q.reverse ++ [e] := by
    have := congrArg List.reverse hx
    simpa using this
  have hn0 : ¬ (x.length = 0) := by rw [hx']; simp
  have hlast : x.getD (x.length - 1) 0 = e := by
    rw [hx']
    simp [List.getD_eq_getElem?_getD]
  simp only [DecodeLastRuneInString, hn0, if_false, hlast, he, if_true]

theorem TrimRightFunc_nil : TrimRightFunc [] IsSpace = [] := by decide

theorem take_cons_head (c : Byte) (rest : Str) (k : Nat) (h : (c :: rest).take k ≠ []) :
    ∃ r, (c :: rest).take k = c :: r := by
  cases k with
  | zero => exact absurd rfl h
  | succ k => exact ⟨rest.take k, rfl⟩

theorem not_space_of_asciiSpace (c : Byte) (h1 : c.val < RuneSelf) (h2 : asciiSpace c = 0) :
    IsSpace c.val = false := (asciiSpace_iff c h1).mp h2

/-- The result of `strings.TrimSpace` is empty, or neither its first rune nor
its last rune is white space. -/
theorem TrimSpace_trimmed (s : Str) :
    TrimSpace s = []
      ∨ (IsSpace (DecodeRuneInString (TrimSpace s)).1 = false
          ∧ IsSpace (DecodeLastRuneInString (TrimSpace s)).1 = false) := by
  obtain ⟨a, ha1, ha2, ha3⟩ := startLoop_spec s 0
  rw [Nat.zero_add] at ha2
  rcases ha3 with ⟨hfb, c, rest, hd, hc⟩ | ⟨hfb, hd⟩
  · -- a non-ASCII byte is met first: Unicode-aware trimming of `s[start:]`
    have hT : TrimSpace s = TrimRightFunc (TrimLeftFunc (s.drop a) IsSpace) IsSpace := by
      simp only [TrimSpace, hfb, if_true, ha2, TrimFunc]
    rw [hT]
    rcases TrimLeftFunc_spec (s.drop a) IsSpace with h | ⟨m, _, h2, h3⟩
    · left
      rw [h, TrimRightFunc_nil]
    · rw [h2]
      rcases TrimRightFunc_spec ((s.drop a).drop m) with h | ⟨j, _, _, h6, h7⟩
      · exact Or.inl h
      · right
        rw [h6]
        exact ⟨Decode_take_not_space _ j h3, h7⟩
  · obtain ⟨b, hb1, hb2, hb3⟩ := stopLoop_spec (s.drop a).reverse s.length
    have hv : (s.take (s.length - b)).drop a = (s.drop a).take ((s.drop a).length - b) := by
      rw [List.drop_take, List.length_drop]
      congr 1
      omega
    have hrev : ((s.drop a).take ((s.drop a).length - b)).reverse = (s.drop a).reverse.drop b := by
      rw [List.drop_reverse]
    have hT : TrimSpace s
        = if (TrimSpace.stopLoop (s.drop a).reverse s.length).2 = true
          then TrimRightFunc ((s.drop a).take ((s.drop a).length - b)) IsSpace
          else (s.drop a).take ((s.drop a).length - b) := by
      simp only [TrimSpace, hfb, ha2, hb2, hv, Bool.false_eq_true, if_false]
    rw [hT]
    rcases hd with hd | ⟨c, rest, hd, hc1, hc2⟩
    · -- nothing but ASCII white space
      left
      have hv0 : (s.drop a).take ((s.drop a).length - b) = [] := by
        rw [hd]; exact List.take_nil
      rw [hv0]
      split_ifs
      · exact TrimRightFunc_nil
      · rfl
    · have hfirst : ∀ k, (s.drop a).take k ≠ [] →
          IsSpace (DecodeRuneInString ((s.drop a).take k)).1 = false := by
        intro k hk
        rw [hd] at hk ⊢
        obtain ⟨r, hr⟩ := take_cons_head c rest k hk
        rw [hr, Decode_ascii c r hc1]
        exact not_space_of_asciiSpace c hc1 hc2
      rcases hb3 with ⟨hfb2, e, q, he, hec⟩ | ⟨hfb2, he⟩
      · rw [if_pos hfb2]
        rcases TrimRightFunc_spec ((s.drop a).take ((s.drop a).length - b))
          with h | ⟨j, h4, h5, h6, h7⟩
        · exact Or.inl h
        · right
          rw [h6]
          refine ⟨?_, h7⟩
          rw [List.take_take]
          apply hfirst
          rw [← List.take_take]
          intro hnil
          have := congrArg List.length hnil
          rw [List.length_take] at this
          simp only [List.length_nil] at this
          omega
      · rw [if_neg (by rw [hfb2]; exact Bool.false_ne_true)]
        rcases he with he | ⟨e, q, he, he1, he2⟩
        · left
          rw [← hrev] at he
          simpa using he
        · right
          rw [← hrev] at he
          have hne : (s.drop a).take ((s.drop a).length - b) ≠ [] := by
            intro hnil
            rw [hnil] at he
            cases he
          refine ⟨hfirst _ hne, ?_⟩
          rw [DecodeLast_ascii _ e q he he1]
          exact not_space_of_asciiSpace e he1 he2


theorem reverse_cons_exists (c : Byte) (rest : Str) : ∃ e q, (c :: rest).reverse = e :: q := by
  cases h : (c :: rest).reverse with
  | nil => simp at h
  | cons e q => exact ⟨e, q, rfl⟩

/-- A non-empty string whose first and last runes are not white space is left
unchanged by `strings.TrimSpace`. -/
theorem TrimSpace_of_trimmed (r : Str) (hr : r ≠ [])
    (h1 : IsSpace (DecodeRuneInString r).1 = false)
    (h2 : IsSpace (DecodeLastRuneInString r).1 = false) : TrimSpace r = r := by
  cases r with
  | nil => exact absurd rfl hr
  | cons c rest =>
    by_cases hc : c.val ≥ RuneSelf
    · have hs : TrimSpace.startLoop (c :: rest) 0 = (0, true) := by
        simp [TrimSpace.startLoop, hc]
      simp only [TrimSpace, hs, if_true, List.drop_zero, TrimFunc]
      rw [TrimLeftFunc_id _ _ hr h1, TrimRightFunc_id _ hr h2]
    · have hc' : c.val < RuneSelf := by omega
      rw [Decode_ascii c rest hc'] at h1
      have ha : asciiSpace c = 0 := (asciiSpace_iff c hc').mpr h1
      have hs : TrimSpace.startLoop (c :: rest) 0 = (0, false) := by
        simp [TrimSpace.startLoop, hc, ha]
      obtain ⟨e, q, he⟩ := reverse_cons_exists c rest
      by_cases hec : e.val ≥ RuneSelf
      · have ht : TrimSpace.stopLoop (e :: q) (c :: rest).length = ((c :: rest).length, true) := by
          simp [TrimSpace.stopLoop, hec]
        simp only [TrimSpace, hs, List.drop_zero, he, ht, Bool.false_eq_true, if_false, if_true,
          List.take_length]
        exact TrimRightFunc_id _ hr h2
      · have hec' : e.val < RuneSelf := by omega
        rw [DecodeLast_ascii _ e q he hec'] at h2
        have hb : asciiSpace e = 0 := (asciiSpace_iff e hec').mpr h2
        have ht : TrimSpace.stopLoop (e :: q) (c :: rest).length
            = ((c :: rest).length, false) := by
          simp [TrimSpace.stopLoop, hec, hb]
        simp only [TrimSpace, hs, List.drop_zero, he, ht, Bool.false_eq_true, if_false,
          List.take_length]

theorem TrimSpace_nil : TrimSpace [] = [] := by decide

/-- Function `strings.TrimSpace` is idempotent. -/
theorem TrimSpace_idempotent (s : Str) : TrimSpace (TrimSpace s) = TrimSpace s := by
  rcases TrimSpace_trimmed s with h | ⟨h1, h2⟩
  · rw [h, TrimSpace_nil]
  · by_cases hn : TrimSpace s = []
    · rw [hn, TrimSpace_nil]
    · exact TrimSpace_of_trimmed _ hn h1 h2

theorem TrimRightFunc_take (u : Str) (f : Nat → Bool) : ∃ n, TrimRightFunc u f = u.take n :=
  ⟨_, rfl⟩

theorem TrimLeftFunc_drop (t : Str) (f : Nat → Bool) : ∃ m, TrimLeftFunc t f = t.drop m := by
  by_cases h : indexFunc t f = -1
  · exact ⟨t.length, by simp [TrimLeftFunc, h]⟩
  · exact ⟨(indexFunc t f).toNat, by simp [TrimLeftFunc, h]⟩

/-- The result of `strings.TrimSpace` is a contiguous part of its argument. -/
theorem TrimSpace_slice (s : Str) : ∃ a n, TrimSpace s = (s.drop a).take n := by
  unfold TrimSpace
  simp only []
  split_ifs
  · obtain ⟨m, hm⟩ := TrimLeftFunc_drop (s.drop (TrimSpace.startLoop s 0).1) IsSpace
    obtain ⟨n, hn⟩ := TrimRightFunc_take
      (TrimLeftFunc (s.drop (TrimSpace.startLoop s 0).1) IsSpace) IsSpace
    exact ⟨_, n, by rw [TrimFunc, hn, hm, List.drop_drop]⟩
  · obtain ⟨n, hn⟩ := TrimRightFunc_take
      ((s.take (TrimSpace.stopLoop (s.drop (TrimSpace.startLoop s 0).1).reverse
        s.length).1).drop (TrimSpace.startLoop s 0).1) IsSpace
    exact ⟨_, _, by rw [hn, List.drop_take, List.take_take]⟩
  · exact ⟨_, _, by rw [List.drop_take]⟩

/-! ## `TrimAfter` -/

theorem TrimAfter_of_first (s delimiter : Str) (p : Nat) (hp : FirstFrom s delimiter 0 p) :
    TrimAfter s delimiter = some (TrimSpace (s.take p)) := by
  have hs := Index_drop_spec s delimiter 0 (Nat.zero_le _)
  rw [List.drop_zero] at hs
  rcases hs with ⟨_, h2⟩ | ⟨q, h1, h2⟩
  · exact absurd hp (h2 p)
  · have hq : q = p := FirstFrom_unique s delimiter 0 q p h2 hp
    subst hq
    have hle : q ≤ s.length := by have := h2.2.1.1; omega
    simp only [TrimAfter, h1, Nat.sub_zero]
    rw [if_pos (by omega), sliceTo_nat s q hle]
    rfl

theorem TrimAfter_of_absent (s delimiter : Str) (hno : ∀ p : Nat, ¬ OccursAt s delimiter p) :
    TrimAfter s delimiter = some (TrimSpace s) := by
  have hs := Index_drop_spec s delimiter 0 (Nat.zero_le _)
  rw [List.drop_zero] at hs
  rcases hs with ⟨h1, _⟩ | ⟨q, _, h2⟩
  · simp only [TrimAfter, h1]
    rw [if_neg (by omega)]
    rfl
  · exact absurd h2.2.1 (hno q)


/-- Claim C15: `TrimAfter(s, delimiter)` is the trimmed prefix of `s` that ends
just before the first occurrence of `delimiter` when `delimiter` occurs in `s`,
and the trimmed `s` when it does not occur. -/
theorem TrimAfter_spec (s delimiter : Str) :
    (∀ p : Nat, FirstFrom s delimiter 0 p →
        TrimAfter s delimiter = some (TrimSpace (s.take p)))
    ∧ ((∀ p : Nat, ¬ OccursAt s delimiter p) →
        TrimAfter s delimiter = some (TrimSpace s)) :=
  ⟨TrimAfter_of_first s delimiter, TrimAfter_of_absent s delimiter⟩

/-- Witness for `TrimAfter_spec`: `" a #b#"` and `" a "` with the delimiter
`"#"`. -/
theorem TrimAfter_spec_witness :
    TrimAfter [32, 97, 32, 35, 98, 35] [35] = some (TrimSpace (List.take 3 [32, 97, 32, 35, 98, 35]))
    ∧ TrimAfter [32, 97, 32] [35] = some (TrimSpace [32, 97, 32]) :=
  ⟨(TrimAfter_spec [32, 97, 32, 35, 98, 35] [35]).1 3 (by decide),
   (TrimAfter_spec [32, 97, 32] [35]).2 (by
      intro p hp
      have h := hp.1
      have h2 := hp.2
      simp only [List.length_cons, List.length_nil, List.length_singleton] at h h2
      have : p < 3 := by omega
      interval_cases p <;> revert h2 <;> decide)⟩


theorem first_or_absent (s sep : Str) :
    (∀ p : Nat, ¬ OccursAt s sep p) ∨ ∃ p : Nat, FirstFrom s sep 0 p := by
  rcases Index_go_spec sep s 0 with ⟨_, h⟩ | ⟨p, _, h⟩
  · exact Or.inl h
  · exact Or.inr ⟨p, h⟩

theorem no_occurrence_before_first (s sep : Str) (q : Nat) (hsep : sep ≠ [])
    (h : FirstFrom s sep 0 q) : ∀ p : Nat, ¬ OccursAt (s.take q) sep p := by
  intro p hp
  have hq : q ≤ s.length := by have := h.2.1.1; omega
  have := (OccursAt_take s sep q p hq).mp hp
  have hlen : 0 < sep.length := List.length_pos.mpr hsep
  exact h.2.2 p (by omega) (Nat.zero_le _) this.1

theorem no_occurrence_slice (x sep : Str) (hsep : sep ≠ [])
    (h : ∀ p : Nat, ¬ OccursAt x sep p) (a n : Nat) :
    ∀ p : Nat, ¬ OccursAt ((x.drop a).take n) sep p := by
  intro p hp
  have hlen : 0 < sep.length := List.length_pos.mpr hsep
  have h1 : OccursAt (x.drop a) sep p := by
    rcases Nat.lt_or_ge n (x.drop a).length with hn | hn
    · exact ((OccursAt_take (x.drop a) sep n p (by omega)).mp hp).1
    · rw [List.take_of_length_le hn] at hp
      exact hp
  rcases Nat.lt_or_ge x.length a with ha | ha
  · have := h1.1
    simp only [List.length_drop] at this
    omega
  · exact h (a + p) ((OccursAt_drop x sep a p ha).mp h1)

/-- Claim C19: for a non-empty delimiter the result of `TrimAfter(s, delimiter)`
contains no occurrence of `delimiter`, and `TrimAfter` is idempotent in its
first argument: `TrimAfter(TrimAfter(s, delimiter), delimiter)` is
`TrimAfter(s, delimiter)`. -/
theorem TrimAfter_idempotent (s delimiter : Str) (hd : delimiter ≠ []) :
    ∃ r, TrimAfter s delimiter = some r
      ∧ (∀ p : Nat, ¬ OccursAt r delimiter p)
      ∧ TrimAfter r delimiter = some r := by
  have key : ∀ x : Str, (∀ p : Nat, ¬ OccursAt x delimiter p) →
      (∀ p : Nat, ¬ OccursAt (TrimSpace x) delimiter p)
        ∧ TrimAfter (TrimSpace x) delimiter = some (TrimSpace x) := by
    intro x hx
    obtain ⟨a, n, hs⟩ := TrimSpace_slice x
    have hno : ∀ p : Nat, ¬ OccursAt (TrimSpace x) delimiter p := by
      rw [hs]
      exact no_occurrence_slice x delimiter hd hx a n
    exact ⟨hno, by rw [TrimAfter_of_absent _ _ hno, TrimSpace_idempotent]⟩
  rcases first_or_absent s delimiter with h | ⟨q, h⟩
  · exact ⟨TrimSpace s, TrimAfter_of_absent s delimiter h, key s h⟩
  · exact ⟨TrimSpace (s.take q), TrimAfter_of_first s delimiter q h,
      key (s.take q) (no_occurrence_before_first s delimiter q hd h)⟩

/-- Witness for `TrimAfter_idempotent`: `" a #b# "` with the delimiter `"#"`. -/
theorem TrimAfter_idempotent_witness :
    ∃ r, TrimAfter [32, 97, 32, 35, 98, 35, 32] [35] = some r
      ∧ (∀ p : Nat, ¬ OccursAt r [35] p)
      ∧ TrimAfter r [35] = some r :=
  TrimAfter_idempotent [32, 97, 32, 35, 98, 35, 32] [35] (by decide)

end Strings2
